import Mathlib

/-!
Verification development for the osm-revert repository.

The Python sources under `osm_revert/` are shallowly embedded below:
Python dicts become association lists with unique keys (`dictOf`, `dictGet`,
`dictSet`, `dictDel`), XML element dicts become the `Element` record,
stateful methods become explicit state-passing functions, network calls
become function parameters supplying the responses, and raised exceptions
become `Except` values.
-/

namespace OsmRevert

/-! ## Python-dict model

A Python `dict` built by a comprehension is modelled as an association
list with unique keys, kept in first-insertion order with last-write-wins
values, exactly like CPython. -/

section Dict

variable {κ ν : Type} [DecidableEq κ]

/-- Value stored under key `k`, or `none` (Python `d.get(k)`). -/
def dictGet : List (κ × ν) → κ → Option ν
  | [], _ => none
  | p :: d, k => if p.1 = k then some p.2 else dictGet d k

/-- Assignment `d[k] = v`: overwrite in place if the key is present,
otherwise append (CPython keeps first-insertion order). -/
def dictSet : List (κ × ν) → κ → ν → List (κ × ν)
  | [], k, v => [(k, v)]
  | p :: d, k, v => if p.1 = k then (k, v) :: d else p :: dictSet d k v

/-- Deletion `del d[k]`. -/
def dictDel (d : List (κ × ν)) (k : κ) : List (κ × ν) :=
  d.filter (fun p => p.1 ≠ k)

/-- Build a dict from a list of pairs (a Python dict comprehension over
the pairs: duplicate keys keep the last value). -/
def dictOf (l : List (κ × ν)) : List (κ × ν) :=
  l.foldl (fun d p => dictSet d p.1 p.2) []

/-- Keys of a dict. -/
def dictKeys (d : List (κ × ν)) : List κ := d.map Prod.fst

end Dict

/-! ## Diff-patch engine (`dmp_utils.py`)

The functions `dmp` and `dmp_retry_reverse` in `src/osm_revert/dmp_utils.py`
delegate the text diffing and patching to the vendored `diff_match_patch`
library, which is part of the repository but not present under `src/`.
The library pipeline (`diff_linesToChars`, `diff_main`, `patch_make`,
`patch_apply`, `diff_charsToLinesText`) is therefore abstracted as an
`engine` parameter at the level of line tokens: given `old`, `new` and
`current` token sequences it either fails (some patch hunk did not
apply, i.e. `not all(result_bools)`) or produces the patched token
sequence. The validity checks that `dmp` performs afterwards are all in
`src` and are embedded verbatim. -/

/-- A patch engine: everything `dmp` does between building the three
line-joined strings and obtaining the patched token list. `none` models
`not all(result_bools)` (a patch hunk failed to apply). -/
def PatchEngine : Type := List String → List String → List String → Option (List String)

/-- Models the composite `diff_charsToLinesText` + `.strip().split('\n')`
conversion at the token level. On a nonempty token list whose tokens are
newline-free and trim-stable (all tokens produced by the call sites are
`json.dumps` outputs), rejoining with a trailing newline, stripping and
splitting is the identity; on the empty token list the Python code yields
`''.strip().split('\n') == ['']`, a single empty token. -/
def relines (ts : List String) : List String :=
  if ts = [] then [""] else ts

/-- Embedding of `dmp` (`dmp_utils.py` lines 15-56). The three guard
checks before returning (`duplicate`, `create_new`, `common_delete`) are
taken verbatim from the source; set operations become `List` membership. -/
def dmp (engine : PatchEngine) (old new_ current : List String) :
    Option (List String) :=
  match engine old new_ current with
  | none => none
  | some patched =>
    let result := relines patched
    -- result must not contain duplicates
    if ¬ result.Nodup then none
    -- result must not create any new elements
    else if ¬ (∀ x ∈ result, x ∈ old ∨ x ∈ current) then none
    -- result must not delete any common elements
    else if ¬ (∀ x ∈ old, x ∈ current → x ∈ result) then none
    else some result

/-- Embedding of `dmp_retry_reverse` (`dmp_utils.py` lines 8-12). The
Python walrus test `if result := dmp(...)` is by truthiness; since `dmp`
never returns an empty list (see `dmp_ne_some_nil`), truthiness agrees
with `isSome`. -/
def dmp_retry_reverse (engine : PatchEngine) (old new_ current : List String) :
    Option (List String) :=
  match dmp engine old new_ current with
  | some result => some result
  | none => dmp engine old new_.reverse current

/-! ### Spec-modelled concrete engine

Modelled from the spec: the vendored `diff_match_patch` library is code
of this repository that is not under `src/`. Following the spec (§4.1:
the engine "computes the textual diff between `new` and `current`,
represents it as a patch, and applies that patch to `old`", and §2: a
"longest-common-subsequence-style patch/apply" primitive), the diff is an
LCS-style edit script from `new` to `current`, and application to `old`
is by exact matching — reflecting `Patch_DeleteThreshold = 0` set in
`dmp_utils.py` line 22, which makes any imperfectly matching hunk fail. -/

/-- One diff operation over line tokens. -/
inductive DiffOp where
  | equal (s : String)
  | delete (s : String)
  | insert (s : String)
deriving DecidableEq

/-- Number of non-equal operations: the cost used to pick the smaller
edit script. -/
def scriptCost (ops : List DiffOp) : Nat :=
  ops.countP (fun op => match op with
    | .equal _ => false
    | _ => true)

/-- Modelled from the spec: LCS-style diff from `xs` to `ys` (fuel-based
so that it is structural; the fuel is always sufficient at
`xs.length + ys.length`). -/
def lcsDiff : Nat → List String → List String → List DiffOp
  | 0, xs, ys => xs.map .delete ++ ys.map .insert
  | _ + 1, [], ys => ys.map .insert
  | _ + 1, xs, [] => xs.map .delete
  | fuel + 1, x :: xs, y :: ys =>
    if x = y then .equal x :: lcsDiff fuel xs ys
    else
      let d1 := .delete x :: lcsDiff fuel xs (y :: ys)
      let d2 := .insert y :: lcsDiff fuel (x :: xs) ys
      if scriptCost d1 ≤ scriptCost d2 then d1 else d2

/-- Modelled from the spec: apply an edit script from `new` to `current`
onto a base text. Equalities and deletions must match the base exactly
(`Patch_DeleteThreshold = 0`); trailing base tokens beyond the script are
kept unchanged. -/
def applyScript : List DiffOp → List String → Option (List String)
  | [], rest => some rest
  | .equal s :: ops, t :: ts =>
    if t = s then (applyScript ops ts).map (fun r => s :: r) else none
  | .equal _ :: _, [] => none
  | .delete s :: ops, t :: ts =>
    if t = s then applyScript ops ts else none
  | .delete _ :: _, [] => none
  | .insert s :: ops, ts => (applyScript ops ts).map (fun r => s :: r)

/-- Modelled from the spec: the complete engine — diff `new` against
`current`, make a patch, apply it to `old`. -/
def specEngine : PatchEngine :=
  fun old new_ current => applyScript (lcsDiff (new_.length + current.length) new_ current) old

/-- The tokens an edit script emits: the targets of its `equal` and
`insert` operations, in order. -/
def scriptOutput : List DiffOp → List String
  | [] => []
  | .equal s :: ops => s :: scriptOutput ops
  | .delete _ :: ops => scriptOutput ops
  | .insert s :: ops => s :: scriptOutput ops

/-- The number of base tokens an edit script consumes: its `equal` and
`delete` operations. -/
def scriptSource : List DiffOp → Nat
  | [] => 0
  | .equal _ :: ops => scriptSource ops + 1
  | .delete _ :: ops => scriptSource ops + 1
  | .insert _ :: ops => scriptSource ops

/-! ## Entity model

OSM elements as parsed from XML into Python dicts are modelled by the
`Element` record. `'@id'` and `'@version'` values are opaque keys only
ever compared for equality and are modelled as `Nat`; `'@visible'`
(`'true'`/`'false'` strings) becomes `Bool`; `'@lat'`/`'@lon'` are
compared as strings in the source and stay `String`; `tag`, `nd` and
`member` are the usual lists. The `'@visible:original'` marker added by
`_set_visible_original` is the `visibleOriginal` field (`none` = key
absent). -/

/-- The three element kinds. -/
inductive ElemType where
  | node
  | way
  | relation
deriving DecidableEq

/-- A relation member (`{'@type': ..., '@ref': ..., '@role': ...}`). -/
structure Member where
  type : ElemType
  ref : Nat
  role : String
deriving DecidableEq

/-- An OSM element dict. -/
structure Element where
  id : Nat
  version : Nat
  visible : Bool
  tags : List (String × String)
  lat : String
  lon : String
  nd : List Nat
  member : List Member
  visibleOriginal : Option Bool
deriving DecidableEq

/-- Decidable equality for `Except`, used to evaluate the embedded
functions at concrete inputs. -/
instance instDecEqExcept {ε α : Type} [DecidableEq ε] [DecidableEq α] :
    DecidableEq (Except ε α) := fun x y =>
  match x, y with
  | .ok a, .ok b =>
    if h : a = b then .isTrue (by rw [h])
    else .isFalse (by intro hc; cases hc; exact h rfl)
  | .ok _, .error _ => .isFalse (fun hc => Except.noConfusion hc)
  | .error _, .ok _ => .isFalse (fun hc => Except.noConfusion hc)
  | .error e, .error f =>
    if h : e = f then .isTrue (by rw [h])
    else .isFalse (by intro hc; cases hc; exact h rfl)

/-- Python exceptions raised by the embedded code. -/
inductive PyError where
  /-- Subscripting `None` (e.g. `None['@visible']`). -/
  | typeError
  /-- The explicit `Exception(f'Invalid state: ...')` in `_invert_element`. -/
  | invalidState
  /-- `NotImplementedError(f'Unknown element type: ...')`. -/
  | notImplemented
  /-- `RecursionError('Parents recursion limit reached')`. -/
  | recursionError
deriving DecidableEq

/-! ## Tag inversion (`invert.py` lines 169-232)

`_invert_tags_create/modify/delete` iterate over `changed_items`, a
Python set of key-value pairs; every iteration reads and writes
`current_tags` only at its own key and reads `old_tags`/`new_tags`
only, so iterations at distinct keys commute and each key occurs in at
most one pair of the set. The embedding iterates over the entries of the
driving dict (`new_tags` for create/modify, `old_tags` for delete) and
filters by the `changed_items` condition in the body. -/

/-- Embedding of `Inverter._invert_tags_create`. `onlyTags` is the
`_only_tags` frozenset; `oldT`, `newT` are the old/new tag dicts and the
fold threads `current_tags`. -/
def invert_tags_create (onlyTags : List String) (oldT newT curT :
    List (String × String)) : List (String × String) :=
  newT.foldl (fun cur kv =>
    -- changed_items: (k, v) in new items but not in old items
    if dictGet oldT kv.1 = some kv.2 then cur
    -- ignore only_tags mode
    else if onlyTags ≠ [] ∧ kv.1 ∉ onlyTags then cur
    -- ignore modified
    else if (dictGet oldT kv.1).isSome then cur
    -- expect to be new value
    else if dictGet cur kv.1 ≠ some kv.2 then cur
    else dictDel cur kv.1) curT

/-- Embedding of `Inverter._invert_tags_modify`. -/
def invert_tags_modify (onlyTags : List String) (oldT newT curT :
    List (String × String)) : List (String × String) :=
  newT.foldl (fun cur kv =>
    if dictGet oldT kv.1 = some kv.2 then cur
    else if onlyTags ≠ [] ∧ kv.1 ∉ onlyTags then cur
    else match dictGet oldT kv.1 with
      -- ignore created
      | none => cur
      | some w =>
        -- expect to be new value
        if dictGet cur kv.1 ≠ some kv.2 then cur
        else dictSet cur kv.1 w) curT

/-- Embedding of `Inverter._invert_tags_delete`. -/
def invert_tags_delete (onlyTags : List String) (oldT newT curT :
    List (String × String)) : List (String × String) :=
  oldT.foldl (fun cur kv =>
    -- changed_items: (k, v) in old items but not in new items
    if dictGet newT kv.1 = some kv.2 then cur
    else if onlyTags ≠ [] ∧ kv.1 ∉ onlyTags then cur
    -- ignore modified
    else if (dictGet newT kv.1).isSome then cur
    -- expect to be deleted
    else if (dictGet cur kv.1).isSome then cur
    else dictSet cur kv.1 kv.2) curT

/-- Embedding of `Inverter._invert_tags`: build the three tag dicts,
run the three sub-inversions in order, and return the items of the final
dict (the source writes them back as `current['tag']`). -/
def invert_tags (onlyTags : List String) (oldTags newTags curTags :
    List (String × String)) : List (String × String) :=
  let oldT := dictOf oldTags
  let newT := dictOf newTags
  invert_tags_delete onlyTags oldT newT
    (invert_tags_modify onlyTags oldT newT
      (invert_tags_create onlyTags oldT newT (dictOf curTags)))

/-! ## Structure inversion and `_invert_element` (`invert.py` lines 113-323)

The `dmp` calls in `_invert_way_nodes` / `_invert_relation_members`
operate on `json.dumps` serializations of the `nd` / `member` dicts; any
injective serialization works, and `json.loads` of a patched token — which
the `dmp` checks guarantee came from `old` or `current` — is modelled by
looking the token up among the serializations of `old`/`current` entries.
Statistics counters and warnings lists are bookkeeping not modelled here,
except for the `fix:{element_type}` increment, which marks that the
advanced-revert path was taken and is returned as the `Bool` component. -/

/-- Serialization of a way `nd` entry (`json.dumps(n)`). -/
def serNd (r : Nat) : String := toString r

/-- Serialization of a relation `member` entry (`json.dumps(m)`). -/
def serMember (m : Member) : String :=
  (match m.type with
    | .node => "node"
    | .way => "way"
    | .relation => "relation") ++ "/" ++ toString m.ref ++ "/" ++ m.role

/-- Models `json.loads(p)` for a patched `nd` token, which by the `dmp`
checks serializes an entry of `old` or `current`. -/
def unserNd (pool : List Nat) (s : String) : Nat :=
  ((pool.find? (fun r => serNd r = s)).getD 0)

/-- Models `json.loads(p)` for a patched `member` token. -/
def unserMember (pool : List Member) (s : String) : Member :=
  ((pool.find? (fun m => serMember m = s)).getD ⟨.node, 0, ""⟩)

/-- Embedding of `Inverter._invert_node_position` (`invert.py` 234-244). -/
def invert_node_position (old new_ cur : Element) : Element :=
  -- ignore unmoved
  if old.lat = new_.lat ∧ old.lon = new_.lon then cur
  -- expect to be at new location
  else if cur.lat ≠ new_.lat ∨ cur.lon ≠ new_.lon then cur
  else { cur with lat := old.lat, lon := old.lon }

/-- Embedding of `Inverter._invert_way_nodes` (`invert.py` 246-283). -/
def invert_way_nodes (engine : PatchEngine) (old new_ cur : Element) : Element :=
  let oldN := old.nd.map serNd
  let newN := new_.nd.map serNd
  let curN := cur.nd.map serNd
  -- ignore unmodified
  if oldN = newN then cur
  -- already reverted (empty symmetric difference of old and current)
  else if curN ≠ newN ∧ (oldN.all (· ∈ curN) ∧ curN.all (· ∈ oldN)) then cur
  -- simple revert if no more edits
  else if curN = newN then { cur with nd := old.nd }
  else match dmp_retry_reverse engine oldN newN curN with
    | some patch => { cur with nd := patch.map (unserNd (old.nd ++ cur.nd)) }
    | none =>
      -- absolute delete: drop the refs newly introduced by the edit
      let createDiff := new_.nd.filter (fun r => r ∉ old.nd)
      { cur with nd := cur.nd.filter (fun r => r ∉ createDiff) }

/-- Embedding of `Inverter._invert_relation_members` (`invert.py` 285-322). -/
def invert_relation_members (engine : PatchEngine) (old new_ cur : Element) :
    Element :=
  let oldM := old.member.map serMember
  let newM := new_.member.map serMember
  let curM := cur.member.map serMember
  if oldM = newM then cur
  else if curM ≠ newM ∧ (oldM.all (· ∈ curM) ∧ curM.all (· ∈ oldM)) then cur
  else if curM = newM then { cur with member := old.member }
  else match dmp_retry_reverse engine oldM newM curM with
    | some patch =>
      { cur with member := patch.map (unserMember (old.member ++ cur.member)) }
    | none =>
      let createDiff := new_.member.filter (fun m => m.ref ∉ old.member.map Member.ref)
      { cur with member :=
          cur.member.filter (fun m => m.ref ∉ createDiff.map Member.ref) }

/-- The advanced-revert body of `_invert_element` (`invert.py` lines
138-151): tag reconciliation always runs; position / way-node /
relation-member reconciliation only outside `only_tags` mode. Returns the
mutated `current`. -/
def advanced_revert (onlyTags : List String) (engine : PatchEngine)
    (etype : ElemType) (o new_ cur : Element) : Element :=
  let cur1 := { cur with tags := invert_tags onlyTags o.tags new_.tags cur.tags }
  if onlyTags = [] then
    match etype with
    | .node => invert_node_position o new_ cur1
    | .way => invert_way_nodes engine o new_ cur1
    | .relation => invert_relation_members engine o new_ cur1
  else cur1

/-- Embedding of `Inverter._invert_element` (`invert.py` lines 113-167).

The result is `(fixIncremented, recorded)`: `fixIncremented` is `true`
exactly when the advanced-revert branch ran (the source increments
`statistics['fix:...']` there), and `recorded = some e` means the source
stored `e` in `self._current_map[element_type][element_id]`.

Two notes on fidelity: `element_type` is an enumeration of the three
kinds, so the `NotImplementedError` arm for an unknown kind is
unrepresentable; and the source's final `current != current_original`
comparison is dict comparison (in which the normalized `list` vs rebuilt
`tuple` for `'tag'` always differ when tags are present — making the
source record somewhat more often than semantic inequality); it is
modelled as equality of the `Element` records, which no claim depends on. -/
def invert_element (onlyTags : List String) (engine : PatchEngine)
    (etype : ElemType) (old : Option Element) (new_ cur : Element) :
    Except PyError (Bool × Option Element) :=
  -- Python: `(not old or old['@visible'] == 'false') and new['@visible'] == 'true'`
  let oldFalsy := match old with
    | none => true
    | some o => !o.visible
  -- create
  if oldFalsy && new_.visible then
    -- ignore only_tags mode
    if onlyTags ≠ [] then .ok (false, none)
    -- absolute delete
    else if cur.visible then .ok (false, some { cur with visible := false })
    else .ok (false, none)
  else
    match old with
    -- Python subscripts `None` in the `elif` conditions: a `TypeError`
    | none => .error .typeError
    | some o =>
      -- modify
      if o.visible && new_.visible then
        -- simple revert; only_tags mode requires advanced revert
        if cur.version = new_.version ∧ onlyTags = [] then .ok (false, some o)
        -- advanced revert (element currently is not deleted)
        else if cur.visible then
          let cur2 := advanced_revert onlyTags engine etype o new_ cur
          .ok (true, if cur2 ≠ cur then some cur2 else none)
        else .ok (false, none)
      -- delete
      else if o.visible && !new_.visible then
        -- ignore only_tags mode
        if onlyTags ≠ [] then .ok (false, none)
        -- do not restore repeatedly deleted elements
        else if cur.version = new_.version then .ok (false, some o)
        else .ok (false, none)
      else .error .invalidState

/-! ## `invert_diff` (`invert.py` lines 68-111)

`Inverter.invert_diff` iterates over the diff dict (keys inserted in the
order `node`, `way`, `relation` by `_get_changeset_elements_history`),
threads `_current_map` / `_version_map`, and finally restores the latest
version numbers and drops re-deletions. The statistics flattening at the
end (joining id lists with `;`) only affects statistics and is not
modelled. -/

/-- Embedding of `_set_visible_original` (`invert.py` 325-327) for a
present element. -/
def set_visible_originalE (t : Element) (cur : Element) : Element :=
  if t.visibleOriginal = none then { t with visibleOriginal := some cur.visible } else t

/-- A diff entry as built by the history reconstructor. -/
structure DiffEntry where
  timestamp : Nat
  element_id : Nat
  element_old : Option Element
  element_new : Element
  element_current : Element
deriving DecidableEq

/-- The `Inverter` state threaded through `invert_diff`: `_current_map`
and `_version_map`, one dict per element type. -/
structure InvState where
  currentMap : ElemType → List (Nat × Element)
  versionMap : ElemType → List (Nat × Nat)

/-- The fresh state of a new `Inverter`. -/
def initState : InvState := ⟨fun _ => [], fun _ => []⟩

/-- Point update of a per-type table. -/
def updPT {α : Type} (f : ElemType → α) (t : ElemType) (x : α) : ElemType → α :=
  fun u => if u = t then x else f u

/-- One iteration of the `invert_diff` entry loop (`invert.py` 71-88). -/
def invert_diff_entry (onlyTags : List String) (engine : PatchEngine)
    (etype : ElemType) (st : InvState) (entry : DiffEntry) :
    Except PyError InvState :=
  let eid := entry.element_id
  let cur0 := entry.element_current
  -- record the latest version at the first encounter of this id
  let vm := if (dictGet (st.versionMap etype) eid).isNone
    then updPT st.versionMap etype (dictSet (st.versionMap etype) eid cur0.version)
    else st.versionMap
  -- carry forward the freshest current snapshot for this id (deep copy)
  let cur1 := match dictGet (st.currentMap etype) eid with
    | some lastCur => lastCur
    | none => cur0
  let old1 := entry.element_old.map (fun t => set_visible_originalE t cur1)
  let new1 := set_visible_originalE entry.element_new cur1
  let cur2 := set_visible_originalE cur1 cur1
  match invert_element onlyTags engine etype old1 new1 cur2 with
  | .error e => .error e
  | .ok (_, none) => .ok ⟨st.currentMap, vm⟩
  | .ok (_, some recd) =>
    .ok ⟨updPT st.currentMap etype (dictSet (st.currentMap etype) eid recd), vm⟩

/-- The entry loops of `invert_diff` over the three element types. -/
def invert_diff_loop (onlyTags : List String) (engine : PatchEngine)
    (diff : ElemType → List DiffEntry) : Except PyError InvState :=
  [ElemType.node, ElemType.way, ElemType.relation].foldlM
    (fun st t => (diff t).foldlM (invert_diff_entry onlyTags engine t) st)
    initState

/-- The result phase of `invert_diff` (`invert.py` 90-104): restore the
latest version number, drop elements re-deleting something already
deleted, and strip the `'@visible:original'` marker. -/
def invert_diff_final (st : InvState) (t : ElemType) : List Element :=
  ((st.currentMap t).map Prod.snd).filterMap (fun e =>
    let e1 := { e with version := (dictGet (st.versionMap t) e.id).getD e.version }
    if e1.visible = false ∧ e1.visibleOriginal = some false then none
    else some { e1 with visibleOriginal := none })

/-- Embedding of `Inverter.invert_diff`: the produced element list for
one element type. -/
def invert_diff (onlyTags : List String) (engine : PatchEngine)
    (diff : ElemType → List DiffEntry) (t : ElemType) :
    Except PyError (List Element) :=
  (invert_diff_loop onlyTags engine diff).map (fun st => invert_diff_final st t)

/-- A diff holding a single entry of one element type. -/
def singletonDiff (t : ElemType) (e : DiffEntry) : ElemType → List DiffEntry :=
  updPT (fun _ => []) t [e]

/-- The legal `(old.visible, new.visible)` transitions of the spec:
create (`old` absent or invisible, `new` visible), modify (both
visible), delete (`old` visible, `new` invisible). Equivalently: `new`
is visible, or `old` is present and visible. -/
def legal_transition (old : Option Element) (new_ : Element) : Prop :=
  new_.visible = true ∨ (∃ o, old = some o ∧ o.visible = true)

/-! ## Partition completeness check (`overpass.py` lines 260-267)

In `Overpass._get_changeset_elements_history`, after fetching a
partition's action diff the code first compares the mirror's data horizon
(`meta['@osm_base']`) against the partition timestamp and returns the
"Overpass is updating, please try again shortly" error when
`osm_base <= timestamp`; only then does it compare the returned action
count against the requested id count, returning "Overpass data is
incomplete" on mismatch. `parse_timestamp` maps date strings monotonically
to epoch integers, modelled as `Nat`. -/

/-- Outcome of the per-partition checks. -/
inductive PartitionStatus where
  /-- Both checks passed; processing continues. -/
  | passed
  /-- The mirror is stale: retry later. -/
  | stale
  /-- The mirror returned a wrong number of transitions. -/
  | incomplete
deriving DecidableEq

/-- Embedding of the check sequence of `overpass.py` lines 260-267. -/
def partition_check (osmBase timestamp partitionSize querySize : Nat) :
    PartitionStatus :=
  if osmBase ≤ timestamp then .stale
  else if partitionSize ≠ querySize then .incomplete
  else .passed

/-! ## Exponential-backoff retry wrapper (`utils.py` lines 24-50)

`retry_exponential` wraps a function in a retry loop. Wall-clock readings
and the jitter stream are external inputs, passed as explicit traces:
`r 0` is the `time.perf_counter()` reading taken at entry (`ts`),
`r (n+1)` the reading in the `except` handler after attempt `n`, `j n`
the `random.random()` value drawn after attempt `n` (a real in `[0, 1)`,
modelled as `ℚ`), and `a n` the outcome of the n-th invocation of the
wrapped function. The loop is fuel-unrolled; `none` means the loop has
neither returned nor raised within `fuel` attempts. Timeout `None`
(infinite budget) is not modelled; `timedelta` conversion is a no-op at
this level. The result carries the number of attempts made. -/

/-- Embedding of `sleep = min(sleep * (1 + random.random()), 1800)`
(`utils.py` line 46). -/
def nextSleep (jitter sleep : ℚ) : ℚ := min (sleep * (1 + jitter)) 1800

/-- The retry loop of `retry_exponential` (`utils.py` lines 38-46). Note
that the `except` clause catches every `Exception` without inspecting it:
there is no error-class distinction anywhere in the loop. -/
def retry_loop {α ε : Type} (timeoutS : ℚ) (r : Nat → ℚ) (j : Nat → ℚ)
    (a : Nat → Except ε α) : Nat → Nat → ℚ → Option (Except ε α × Nat)
  | 0, _, _ => none
  | fuel + 1, n, sleep =>
    match a n with
    | .ok v => some (.ok v, n + 1)
    | .error e =>
      if r (n + 1) + sleep - r 0 > timeoutS then some (.error e, n + 1)
      else retry_loop timeoutS r j a fuel (n + 1) (nextSleep (j n) sleep)

/-- Embedding of the wrapper produced by `retry_exponential(timeout,
start=...)` applied to a function. -/
def retry_exponential {α ε : Type} (timeoutS start : ℚ) (r : Nat → ℚ)
    (j : Nat → ℚ) (a : Nat → Except ε α) (fuel : Nat) :
    Option (Except ε α × Nat) :=
  retry_loop timeoutS r j a fuel 0 start

/-- The sleep interval before the (n+1)-th retry. -/
def sleepSeq (start : ℚ) (j : Nat → ℚ) : Nat → ℚ
  | 0 => start
  | n + 1 => nextSleep (j n) (sleepSeq start j n)

/-! ## Parent consistency fixer (`overpass.py` lines 357-497)

`Overpass.update_parents` queries the structural parents of tombstoned
ids and patches (repair mode, `fix_parents = True`) or prunes (prune
mode) them, up to ten query-and-patch iterations. The Overpass parents
query is external I/O, passed as the function parameter `query` from the
current per-type deleting-id sets to the per-type parent element lists.
Per-element processing is faithful to the source; `ensure_visible_tag` is
the identity on the total `Element` record, and a fetch error (which the
source leaks as a string return value) is outside the model since `query`
is total. -/

/-- The running state of one iteration of `update_parents`. -/
structure ParentLoopState where
  invert : ElemType → List Element
  internal : ElemType → List Nat
  counter : Nat
  changed : Bool

/-- Per-type ids of elements about to be deleted (`overpass.py` 366-370). -/
def deleting_of (invert : ElemType → List Element) : ElemType → List Nat :=
  fun t => ((invert t).filter (fun e => e.visible = false)).map Element.id

/-- Replace the first list slot holding the element's id (`overpass.py`
463-465). -/
def replaceFirstById (l : List Element) (e : Element) : List Element :=
  match l.findIdx? (fun v => v.id = e.id) with
  | some i => l.set i e
  | none => l

/-- Prune mode for one child type (`overpass.py` 471-492): locate the
first occurrence of each removed child id, drop those positions from the
pending invert list, remove the ids from `internal_ids` and count them.
The Python `set.remove` can only be reached for ids still present in
`internal_ids`; it is modelled as a filter. -/
def prune_one_type (st : ParentLoopState) (key : ElemType) (ids : List Nat) :
    ParentLoopState :=
  let found := ids.filter (fun i => ((st.invert key).findIdx? (fun v => v.id = i)).isSome)
  let idxs := found.filterMap (fun i => (st.invert key).findIdx? (fun v => v.id = i))
  { st with
    invert := updPT st.invert key
      (((st.invert key).enum.filter (fun p => p.1 ∉ idxs)).map Prod.snd)
    internal := updPT st.internal key ((st.internal key).filter (fun i => i ∉ found))
    counter := st.counter + found.length }

/-- The shared tail of the per-parent processing (`overpass.py` 454-492):
skip when no child was removed, otherwise flag the change and either
merge the patched parent into the invert set (repair mode) or prune the
removed children from it (prune mode). -/
def apply_parent_change (fixParents : Bool)
    (invertMap : ElemType → List (Nat × Element)) (t : ElemType)
    (st0 : ParentLoopState) (elem2 : Element) (removed : ElemType → List Nat) :
    ParentLoopState :=
  -- skip if nothing changed
  if (removed .node).isEmpty ∧ (removed .way).isEmpty ∧ (removed .relation).isEmpty
    then st0
  else
    let st := { st0 with changed := true }
    if fixParents then
      -- ensure_visible_tag: identity on the total record
      if (dictGet (invertMap t) elem2.id).isSome then
        { st with invert := updPT st.invert t (replaceFirstById (st.invert t) elem2) }
      else
        { st with
          invert := updPT st.invert t (st.invert t ++ [elem2])
          counter := st.counter + 1 }
    else
      [ElemType.node, ElemType.way, ElemType.relation].foldl
        (fun st key => prune_one_type st key (removed key)) st

/-- Processing of one returned parent element (`overpass.py` 399-492). -/
def process_parent (fixParents : Bool) (deleting : ElemType → List Nat)
    (invertMap : ElemType → List (Nat × Element)) (t : ElemType)
    (st : ParentLoopState) (elemRaw : Element) : Except PyError ParentLoopState :=
  -- skip internal elements when not fixing parents
  if ¬ fixParents ∧ elemRaw.id ∈ st.internal t then .ok st
  else
    -- use current element if present (deep copy)
    let elem := (dictGet (invertMap t) elemRaw.id).getD elemRaw
    -- skip if parent is already deleted
    if elem.visible = false then .ok st
    else
      match t with
      | .node => .error .notImplemented
      | .way =>
        let newNds := elem.nd.filter (fun rf => rf ∉ deleting .node)
        let removedNode := (elem.nd.filter (fun rf => rf ∈ deleting .node)).dedup
        -- delete single node ways
        let nds2 := if newNds.length = 1 then [] else newNds
        let elem2 := { elem with
          nd := nds2
          visible := if nds2 = [] then false else elem.visible }
        .ok (apply_parent_change fixParents invertMap t st elem2
          (fun u => match u with | .node => removedNode | _ => []))
      | .relation =>
        let newMembers := elem.member.filter (fun m => m.ref ∉ deleting m.type)
        let removed := fun u =>
          ((elem.member.filter (fun m => m.type = u ∧ m.ref ∈ deleting u)).map
            Member.ref).dedup
        let elem2 := { elem with
          member := newMembers
          visible := if newMembers = [] then false else elem.visible }
        .ok (apply_parent_change fixParents invertMap t st elem2 removed)

/-- The per-type, per-element loops of one iteration (`overpass.py`
399-400; dict order `node`, `way`, `relation`). -/
def process_parents_all (fixParents : Bool) (deleting : ElemType → List Nat)
    (invertMap : ElemType → List (Nat × Element))
    (parents : ElemType → List Element) (st0 : ParentLoopState) :
    Except PyError ParentLoopState :=
  [ElemType.node, ElemType.way, ElemType.relation].foldlM
    (fun st t => (parents t).foldlM (process_parent fixParents deleting invertMap t) st)
    st0

/-- The ten-iteration ceiling loop of `update_parents` (`overpass.py`
365-497). -/
def update_parents_loop
    (query : (ElemType → List Nat) → ElemType → List Element) (fixParents : Bool) :
    Nat → (ElemType → List Element) → (ElemType → List Nat) → Nat →
    Except PyError ((ElemType → List Element) × Nat)
  | 0, _, _, _ => .error .recursionError
  | fuel + 1, invert, internal, counter =>
    let deleting := deleting_of invert
    if (deleting .node).isEmpty ∧ (deleting .way).isEmpty ∧ (deleting .relation).isEmpty
      then .ok (invert, counter)
    else
      let invertMap := fun t => dictOf ((invert t).map (fun e => (e.id, e)))
      let parents := query deleting
      match process_parents_all fixParents deleting invertMap parents
          ⟨invert, internal, counter, false⟩ with
      | .error e => .error e
      | .ok st =>
        if st.changed = false then .ok (st.invert, st.counter)
        else update_parents_loop query fixParents fuel st.invert st.internal st.counter

/-- Embedding of `Overpass.update_parents`. -/
def update_parents (query : (ElemType → List Nat) → ElemType → List Element)
    (fixParents : Bool) (invert0 : ElemType → List Element) :
    Except PyError ((ElemType → List Element) × Nat) :=
  update_parents_loop query fixParents 10 invert0
    (fun t => (invert0 t).map Element.id) 0

/-- The returned repair count of `update_parents`. -/
def update_parents_count (query : (ElemType → List Nat) → ElemType → List Element)
    (fixParents : Bool) (invert0 : ElemType → List Element) : Except PyError Nat :=
  (update_parents query fixParents invert0).map Prod.snd

/-- The final invert list of `update_parents` for one element type. -/
def update_parents_at (query : (ElemType → List Nat) → ElemType → List Element)
    (fixParents : Bool) (invert0 : ElemType → List Element) (t : ElemType) :
    Except PyError (List Element) :=
  (update_parents query fixParents invert0).map (fun p => p.1 t)

/-! ### The nested-parent-chain scenario for C5

A tombstoned point `p` (id 0), and relations `r 1 .. r N` where `r 1`
contains `p` and `r (i+1)` contains `r i`. The parents query of a
consistent Overpass world returns every relation having a member among
the deleting ids. -/

/-- The tombstoned point of the chain scenario. -/
def chainPoint : Element := ⟨0, 1, false, [], "", "", [], [], none⟩

/-- Relation `i` of the chain: contains the point for `i = 1`, relation
`i - 1` otherwise. -/
def chainRel (i : Nat) : Element :=
  ⟨i, 1, true, [], "", "", [],
    [if i = 1 then ⟨.node, 0, ""⟩ else ⟨.relation, i - 1, ""⟩], none⟩

/-- Relation `i` after being patched: member list empty, tombstoned. -/
def deadRel (i : Nat) : Element := { chainRel i with member := [], visible := false }

/-- The inverter output fed into `update_parents`: just the tombstoned
point. -/
def chainInvert : ElemType → List Element :=
  fun t => match t with
  | .node => [chainPoint]
  | _ => []

/-- The structural-parents query of the chain world of length `N`. -/
def chainQuery (N : Nat) (deleting : ElemType → List Nat) :
    ElemType → List Element :=
  fun t => match t with
  | .relation =>
    (((List.range N).map (· + 1)).filter
      (fun i => if i = 1 then 0 ∈ deleting .node else (i - 1) ∈ deleting .relation)).map
      chainRel
  | _ => []

/-- The invert set after the first `i` chain relations have been patched. -/
def chainState (i : Nat) : ElemType → List Element :=
  fun t => match t with
  | .node => [chainPoint]
  | .way => []
  | .relation => (List.range i).map (fun k => deadRel (k + 1))

/-- The internal-id sets of the chain run (never touched in repair mode). -/
def chainInternal : ElemType → List Nat :=
  fun t => match t with
  | .node => [0]
  | _ => []

/-! ## Relation sorting for osmChange (`osm.py` lines 14-64)

`sort_relations_for_osm_change` computes a dependency-respecting order by
a topological peel. The Python working set `no_dependencies` is a stack
(append/pop at the list tail); it is modelled with the most recently
pushed element first, so a push of the newly freed entries (collected in
dict order) conses their reversal. `dependency_state` is a dict from id
to `(relation, remaining-dependency-set)`; the set is modelled as the
list of qualifying member refs with `set.remove` as a filter (equivalent
since only emptiness and membership are consumed). Entries in the state
always carry a non-empty dependency list (empty ones are moved to the
stack immediately), so testing emptiness after the removal filter is
exactly the source's `if rel_id in deps: deps.remove(rel_id); if not
deps: ...`. -/

/-- The dependency ids of a relation: refs of relation-type members that
are ids of the same submission (`osm.py` lines 18-28). -/
def origDeps (changeIds : List Nat) (r : Element) : List Nat :=
  (r.member.filter (fun m => m.type = ElemType.relation ∧ m.ref ∈ changeIds)).map
    Member.ref

/-- The topological peel loop (`osm.py` lines 40-55). `queue` holds the
most recently pushed element first; returns `(result, hidden,
residual-state)`. The fuel is the loop measure `queue.length +
st.length`, which decreases by exactly one per iteration. -/
def peel : Nat → List Element → List (Nat × Element × List Nat) →
    List Element → List Element →
    List Element × List Element × List (Nat × Element × List Nat)
  | 0, _, st, res, hid => (res, hid, st)
  | fuel + 1, queue, st, res, hid =>
    match queue with
    | [] => (res, hid, st)
    | r :: queue2 =>
      let res2 := if r.visible then res ++ [r] else res
      let hid2 := if r.visible then hid else hid ++ [r]
      let stUpd := st.map (fun p => (p.1, p.2.1, p.2.2.filter (fun x => x ≠ r.id)))
      let newly := stUpd.filter (fun p => p.2.2 = [])
      let st2 := stUpd.filter (fun p => ¬ p.2.2 = [])
      peel fuel ((newly.map (fun p => p.2.1)).reverse ++ queue2) st2 res2 hid2

/-- The peel phase of `sort_relations_for_osm_change`: initial state
split (`osm.py` lines 30-38) and loop; returns `(result, hidden,
residual dependency state)`. -/
def sortRelationsParts (relations : List Element) :
    List Element × List Element × List (Nat × Element × List Nat) :=
  let changeIds := relations.map Element.id
  let st0 := dictOf (relations.map (fun r => (r.id, (r, origDeps changeIds r))))
  let q0 := (st0.filter (fun p => p.2.2 = [])).map (fun p => p.2.1)
  let st1 := st0.filter (fun p => ¬ p.2.2 = [])
  peel (q0.length + st1.length) q0.reverse st1 [] []

/-- Embedding of `sort_relations_for_osm_change` (`osm.py` lines 14-64):
visible relations in peel order, then the hidden (to-be-deleted) ones in
reverse peel order, then the residual (cyclic or cycle-blocked) entries
in dictionary order. The per-residual warning is a log print, not
modelled. -/
def sort_relations_for_osm_change (relations : List Element) : List Element :=
  let parts := sortRelationsParts relations
  parts.1 ++ parts.2.1.reverse ++ parts.2.2.map (fun p => p.2.1)

/-- The loop invariant of the topological peel: emitted and pending
relations partition the input; every remaining dependency list is the
original one minus the emitted ids and is non-empty; queue entries have
all their dependencies emitted; emitted relations are split by
visibility; each relation emitted to the visible list is preceded (in
the visible list, or anywhere in the hidden list) by every relation it
depends on; and the pending state is a sublist of the input. -/
def peelInv (rels : List Element) (queue : List Element)
    (st : List (Nat × Element × List Nat)) (res hid : List Element) : Prop :=
  (res ++ hid ++ queue ++ st.map (fun p => p.2.1)).Perm rels ∧
  (∀ p ∈ st, (∀ x, x ∈ p.2.2 ↔
      x ∈ origDeps (rels.map Element.id) p.2.1 ∧
        ¬ x ∈ (res ++ hid).map Element.id) ∧ ¬ p.2.2 = []) ∧
  (∀ r ∈ queue, ∀ d ∈ origDeps (rels.map Element.id) r,
      d ∈ (res ++ hid).map Element.id) ∧
  (∀ u ∈ res, u.visible = true) ∧
  (∀ u ∈ hid, u.visible = false) ∧
  (∀ i u, res[i]? = some u → ∀ d ∈ origDeps (rels.map Element.id) u,
      d ∈ (res.take i).map Element.id ∨ d ∈ hid.map Element.id) ∧
  (st.map (fun p => p.2.1)).Sublist rels

/-- What `sort_relations_for_osm_change` actually guarantees: the output
is a permutation of the input; it decomposes as the visible peel order,
then the hidden (to-be-deleted) relations in reverse peel order, then
the residual cycle-blocked relations in input order; every visible peel
relation is preceded in the visible block — or accompanied in the hidden
block — by every same-submission relation it references; and the
residual block is a sublist of the input. -/
def sortSpec (rels : List Element) : Prop :=
  (sort_relations_for_osm_change rels).Perm rels ∧
  sort_relations_for_osm_change rels =
    (sortRelationsParts rels).1 ++ (sortRelationsParts rels).2.1.reverse ++
      (sortRelationsParts rels).2.2.map (fun p => p.2.1) ∧
  (∀ u ∈ (sortRelationsParts rels).1, u.visible = true) ∧
  (∀ u ∈ (sortRelationsParts rels).2.1, u.visible = false) ∧
  (∀ i u, (sortRelationsParts rels).1[i]? = some u →
    ∀ d ∈ origDeps (rels.map Element.id) u,
      d ∈ ((sortRelationsParts rels).1.take i).map Element.id ∨
      d ∈ ((sortRelationsParts rels).2.1.map Element.id)) ∧
  ((sortRelationsParts rels).2.2.map (fun p => p.2.1)).Sublist rels

/-- A visible relation referencing the hidden relation `crB`. -/
def crA : Element := ⟨1, 1, true, [], "", "", [], [⟨ElemType.relation, 2, ""⟩], none⟩

/-- A hidden (to-be-deleted) relation with no dependencies. -/
def crB : Element := ⟨2, 1, false, [], "", "", [], [], none⟩

/-- One half of a dependency cycle: references `crD`. -/
def crC : Element := ⟨3, 1, true, [], "", "", [], [⟨ElemType.relation, 4, ""⟩], none⟩

/-- The other half of the cycle: references `crC`, and is also referenced
by `crE` (two referrers, the most-referenced residual relation). -/
def crD : Element := ⟨4, 1, true, [], "", "", [], [⟨ElemType.relation, 3, ""⟩], none⟩

/-- A relation outside the cycle that references the cycle member `crD`. -/
def crE : Element := ⟨5, 1, true, [], "", "", [], [⟨ElemType.relation, 4, ""⟩], none⟩

/-- The deleting-id sets at stage `i` of the chain run. -/
def chainDeleting (i : Nat) : ElemType → List Nat :=
  fun t => match t with
  | .node => [0]
  | .way => []
  | .relation => (List.range i).map (· + 1)

/-- The parents map at stage `i` restricted to relations. -/
def chainMapRel (i : Nat) : List (Nat × Element) :=
  (List.range i).map (fun k => (k + 1, deadRel (k + 1)))

/-- The per-type invert map at stage `i` of the chain run. -/
def chainInvertMap (i : Nat) : ElemType → List (Nat × Element) :=
  fun t => dictOf ((chainState i t).map (fun e => (e.id, e)))

/-! ## Theorems -/

section Dict

variable {κ ν : Type} [DecidableEq κ]

@[simp] theorem dictGet_nil (k : κ) : dictGet ([] : List (κ × ν)) k = none := rfl

@[simp] theorem dictGet_cons (p : κ × ν) (d : List (κ × ν)) (k : κ) :
    dictGet (p :: d) k = if p.1 = k then some p.2 else dictGet d k := rfl

@[simp] theorem dictGet_dictSet_self (d : List (κ × ν)) (k : κ) (v : ν) :
    dictGet (dictSet d k v) k = some v := by
  induction d with
  | nil => simp [dictSet]
  | cons p d ih =>
    by_cases hp : p.1 = k
    · simp [dictSet, hp]
    · simp [dictSet, hp, ih]

theorem dictGet_dictSet_ne (d : List (κ × ν)) (k k' : κ) (v : ν) (h : k ≠ k') :
    dictGet (dictSet d k v) k' = dictGet d k' := by
  induction d with
  | nil => simp [dictSet, h]
  | cons p d ih =>
    by_cases hp : p.1 = k
    · subst hp
      simp [dictSet, h]
    · simp [dictSet, hp, ih]

theorem dictGet_dictDel_ne (d : List (κ × ν)) (k k' : κ) (h : k ≠ k') :
    dictGet (dictDel d k) k' = dictGet d k' := by
  induction d with
  | nil => rfl
  | cons p d ih =>
    simp only [dictDel] at ih ⊢
    rw [List.filter_cons]
    by_cases hp : p.1 = k
    · have hb : (decide (p.1 ≠ k)) = false := by simp [hp]
      rw [hb]
      have hne : ¬ p.1 = k' := by rw [hp]; exact h
      simp only [Bool.false_eq_true, if_false, ih, dictGet_cons, if_neg hne]
    · have hb : (decide (p.1 ≠ k)) = true := by simp [hp]
      rw [hb]
      simp only [if_true, dictGet_cons, ih]

theorem dictKeys_dictSet (d : List (κ × ν)) (k : κ) (v : ν) :
    dictKeys (dictSet d k v) = dictKeys d ∨
    dictKeys (dictSet d k v) = dictKeys d ++ [k] := by
  induction d with
  | nil => right; simp [dictSet, dictKeys]
  | cons p d ih =>
    by_cases hp : p.1 = k
    · left; simp [dictSet, hp, dictKeys]
    · rcases ih with ih | ih
      · left; simp [dictSet, hp, dictKeys] at *; exact ih
      · right; simp [dictSet, hp, dictKeys] at *; exact ih

theorem dictKeys_nodup_dictSet (d : List (κ × ν)) (k : κ) (v : ν)
    (h : (dictKeys d).Nodup) : (dictKeys (dictSet d k v)).Nodup := by
  induction d with
  | nil => simp [dictSet, dictKeys]
  | cons p d ih =>
    simp only [dictKeys, List.map_cons, List.nodup_cons] at h
    by_cases hp : p.1 = k
    · subst hp
      simpa [dictSet, dictKeys, List.nodup_cons] using h
    · simp only [dictSet, if_neg hp, dictKeys, List.map_cons, List.nodup_cons]
      constructor
      · intro hc
        rw [show List.map Prod.fst (dictSet d k v) = dictKeys (dictSet d k v) from rfl] at hc
        rcases dictKeys_dictSet d k v with he | he
        · rw [he] at hc
          exact h.1 (by simpa [dictKeys] using hc)
        · rw [he] at hc
          rcases List.mem_append.mp hc with hc | hc
          · exact h.1 (by simpa [dictKeys] using hc)
          · simp only [List.mem_singleton] at hc
            exact hp hc
      · exact ih h.2

theorem dictKeys_dictOf_nodup (l : List (κ × ν)) : (dictKeys (dictOf l)).Nodup := by
  suffices h : ∀ d : List (κ × ν), (dictKeys d).Nodup →
      (dictKeys (l.foldl (fun d p => dictSet d p.1 p.2) d)).Nodup by
    exact h [] (by simp [dictKeys])
  induction l with
  | nil => intro d hd; simpa using hd
  | cons p l ih =>
    intro d hd
    exact ih _ (dictKeys_nodup_dictSet d p.1 p.2 hd)

/-- Membership of a pair in a nodup-keys dict determines `dictGet`. -/
theorem dictGet_of_mem_nodup (d : List (κ × ν)) (hk : (dictKeys d).Nodup)
    {k : κ} {v : ν} (h : (k, v) ∈ d) : dictGet d k = some v := by
  induction d with
  | nil => cases h
  | cons p d ih =>
    rcases List.mem_cons.mp h with h | h
    · subst h
      simp [dictGet_cons]
    · have hkeys : (dictKeys d).Nodup := by
        simpa [dictKeys] using hk.of_cons
      have hne : p.1 ≠ k := by
        intro hc
        have : k ∈ dictKeys d := List.mem_map.mpr ⟨(k, v), h, rfl⟩
        simp only [dictKeys, List.map_cons, List.nodup_cons] at hk
        exact hk.1 (hc ▸ this)
      simp [dictGet_cons, hne, ih hkeys h]

/-- Every pair in a dict built by `dictOf` is found by `dictGet`. -/
theorem dictGet_of_mem_dictOf (l : List (κ × ν)) {k : κ} {v : ν}
    (h : (k, v) ∈ dictOf l) : dictGet (dictOf l) k = some v :=
  dictGet_of_mem_nodup _ (dictKeys_dictOf_nodup l) h

theorem dictGet_eq_none_of_not_mem (d : List (κ × ν)) (k : κ)
    (h : k ∉ dictKeys d) : dictGet d k = none := by
  induction d with
  | nil => rfl
  | cons p d ih =>
    simp only [dictKeys, List.map_cons, List.mem_cons, not_or] at h
    simp [dictGet_cons, show ¬ p.1 = k from fun hc => h.1 hc.symm,
      ih (by simpa [dictKeys] using h.2)]

theorem dictSet_append_of_not_mem (d : List (κ × ν)) (k : κ) (v : ν)
    (h : k ∉ dictKeys d) : dictSet d k v = d ++ [(k, v)] := by
  induction d with
  | nil => rfl
  | cons p d ih =>
    simp only [dictKeys, List.map_cons, List.mem_cons, not_or] at h
    have hne : ¬ p.1 = k := fun hc => h.1 hc.symm
    simp [dictSet, hne, ih (by simpa [dictKeys] using h.2)]

theorem dictOf_go (l : List (κ × ν)) : ∀ acc, (dictKeys (acc ++ l)).Nodup →
    l.foldl (fun d p => dictSet d p.1 p.2) acc = acc ++ l := by
  induction l with
  | nil => intro acc _; simp
  | cons p l ih =>
    intro acc hacc
    have hpk : p.1 ∉ dictKeys acc := by
      intro hc
      have hsplit : (dictKeys acc ++ dictKeys (p :: l)).Nodup := by
        simpa [dictKeys] using hacc
      rw [List.nodup_append] at hsplit
      exact hsplit.2.2 hc (by simp [dictKeys])
    rw [List.foldl_cons, dictSet_append_of_not_mem acc p.1 p.2 hpk]
    have hkeys : dictKeys ((acc ++ [(p.1, p.2)]) ++ l) = dictKeys (acc ++ p :: l) := by
      simp [dictKeys]
    rw [ih (acc ++ [(p.1, p.2)]) (by rw [hkeys]; exact hacc)]
    simp

theorem dictOf_self_of_nodup (l : List (κ × ν)) (h : (dictKeys l).Nodup) :
    dictOf l = l := by
  simpa using dictOf_go l [] (by simpa using h)

end Dict

theorem dmp_ne_some_nil (engine : PatchEngine) (old new_ current : List String) :
    dmp engine old new_ current ≠ some [] := by
  unfold dmp
  cases hE : engine old new_ current with
  | none => simp
  | some patched =>
    simp only []
    by_cases h1 : ¬ (relines patched).Nodup
    · simp [h1]
    · by_cases h2 : ¬ (∀ x ∈ relines patched, x ∈ old ∨ x ∈ current)
      · simp [h1, h2]
      · by_cases h3 : ¬ (∀ x ∈ old, x ∈ current → x ∈ relines patched)
        · simp [h1, h2, h3]
        · simp only [h1, h2, h3, if_false, ne_eq, Option.some.injEq]
          intro hc
          unfold relines at hc
          by_cases hp : patched = [] <;> simp [hp] at hc

/-- If `dmp` succeeds, its result satisfies the three checks. -/
theorem dmp_checks (engine : PatchEngine) (old new_ current result : List String)
    (h : dmp engine old new_ current = some result) :
    result.Nodup ∧ (∀ x ∈ result, x ∈ old ∨ x ∈ current) ∧
      (∀ x ∈ old, x ∈ current → x ∈ result) := by
  unfold dmp at h
  cases hE : engine old new_ current with
  | none => rw [hE] at h; cases h
  | some patched =>
    rw [hE] at h
    simp only [] at h
    by_cases h1 : ¬ (relines patched).Nodup
    · simp [h1] at h
    · by_cases h2 : ¬ (∀ x ∈ relines patched, x ∈ old ∨ x ∈ current)
      · simp [h1, h2] at h
      · by_cases h3 : ¬ (∀ x ∈ old, x ∈ current → x ∈ relines patched)
        · simp [h1, h2, h3] at h
        · simp only [h1, h2, h3, if_false, Option.some.injEq] at h
          push_neg at h1 h2 h3
          subst h
          exact ⟨h1, h2, h3⟩

theorem lcsDiff_self (fuel : Nat) (xs : List String) (h : xs.length ≤ fuel) :
    lcsDiff fuel xs xs = xs.map .equal := by
  induction fuel generalizing xs with
  | zero =>
    interval_cases hx : xs.length
    · rw [List.length_eq_zero] at hx
      subst hx
      rfl
  | succ fuel ih =>
    cases xs with
    | nil => rfl
    | cons x xs =>
      have hlen : xs.length ≤ fuel := by
        simp only [List.length_cons] at h
        omega
      simp only [lcsDiff, List.map_cons, if_true, eq_self_iff_true, ih xs hlen]

theorem applyScript_equal_self (xs : List String) :
    applyScript (xs.map .equal) xs = some xs := by
  induction xs with
  | nil => rfl
  | cons x xs ih => simp [applyScript, ih]

theorem specEngine_self (xs : List String) : specEngine xs xs xs = some xs := by
  unfold specEngine
  rw [lcsDiff_self _ xs (by omega), applyScript_equal_self]

theorem scriptOutput_append (a b : List DiffOp) :
    scriptOutput (a ++ b) = scriptOutput a ++ scriptOutput b := by
  induction a with
  | nil => rfl
  | cons op a ih => cases op <;> simp [scriptOutput, ih]

theorem scriptOutput_map_delete (xs : List String) :
    scriptOutput (xs.map .delete) = [] := by
  induction xs with
  | nil => rfl
  | cons x xs ih => simp [scriptOutput, ih]

theorem scriptOutput_map_insert (ys : List String) :
    scriptOutput (ys.map .insert) = ys := by
  induction ys with
  | nil => rfl
  | cons y ys ih => simp [scriptOutput, ih]

theorem scriptSource_append (a b : List DiffOp) :
    scriptSource (a ++ b) = scriptSource a + scriptSource b := by
  induction a with
  | nil => simp [scriptSource]
  | cons op a ih => cases op <;> simp [scriptSource, ih] <;> omega

theorem scriptSource_map_delete (xs : List String) :
    scriptSource (xs.map .delete) = xs.length := by
  induction xs with
  | nil => rfl
  | cons x xs ih => simp [scriptSource, ih]

theorem scriptSource_map_insert (ys : List String) :
    scriptSource (ys.map .insert) = 0 := by
  induction ys with
  | nil => rfl
  | cons y ys ih => simp [scriptSource, ih]

/-- Whatever path the LCS diff takes, the tokens it emits are exactly the
target sequence. -/
theorem scriptOutput_lcsDiff (fuel : Nat) : ∀ xs ys : List String,
    scriptOutput (lcsDiff fuel xs ys) = ys := by
  induction fuel with
  | zero =>
    intro xs ys
    simp [lcsDiff, scriptOutput_append, scriptOutput_map_delete, scriptOutput_map_insert]
  | succ fuel ih =>
    intro xs ys
    cases xs with
    | nil => simp [lcsDiff, scriptOutput_map_insert]
    | cons x xs =>
      cases ys with
      | nil => simp [lcsDiff, scriptOutput, scriptOutput_map_delete]
      | cons y ys =>
        simp only [lcsDiff]
        by_cases hxy : x = y
        · subst hxy
          simp [scriptOutput, ih]
        · rw [if_neg hxy]
          split_ifs <;> simp [scriptOutput, ih]

/-- Whatever path the LCS diff takes, it consumes exactly the source
sequence. -/
theorem scriptSource_lcsDiff (fuel : Nat) : ∀ xs ys : List String,
    scriptSource (lcsDiff fuel xs ys) = xs.length := by
  induction fuel with
  | zero =>
    intro xs ys
    simp [lcsDiff, scriptSource_append, scriptSource_map_delete, scriptSource_map_insert]
  | succ fuel ih =>
    intro xs ys
    cases xs with
    | nil => simp [lcsDiff, scriptSource_map_insert]
    | cons x xs =>
      cases ys with
      | nil => simp [lcsDiff, scriptSource, scriptSource_map_delete]
      | cons y ys =>
        simp only [lcsDiff]
        by_cases hxy : x = y
        · subst hxy
          simp [scriptSource, ih]
        · rw [if_neg hxy]
          split_ifs <;> simp [scriptSource, ih]

/-- A successful script application returns the script's emitted tokens
followed by the unconsumed tail of the base. -/
theorem applyScript_some_eq : ∀ (ops : List DiffOp) (old r : List String),
    applyScript ops old = some r →
    r = scriptOutput ops ++ old.drop (scriptSource ops) := by
  intro ops
  induction ops with
  | nil =>
    intro old r h
    simp only [applyScript, Option.some.injEq] at h
    simp [scriptOutput, scriptSource, ← h]
  | cons op ops ih =>
    intro old r h
    cases op with
    | equal s =>
      cases old with
      | nil => simp [applyScript] at h
      | cons t ts =>
        simp only [applyScript] at h
        by_cases hts : t = s
        · rw [if_pos hts] at h
          cases hap : applyScript ops ts with
          | none => rw [hap] at h; simp at h
          | some r2 =>
            rw [hap] at h
            simp only [Option.map_some', Option.some.injEq] at h
            subst h
            rw [ih ts r2 hap]
            simp [scriptOutput, scriptSource, List.drop_succ_cons]
        · rw [if_neg hts] at h
          cases h
    | delete s =>
      cases old with
      | nil => simp [applyScript] at h
      | cons t ts =>
        simp only [applyScript] at h
        by_cases hts : t = s
        · rw [if_pos hts] at h
          rw [ih ts r h]
          simp [scriptOutput, scriptSource, List.drop_succ_cons]
        · rw [if_neg hts] at h
          cases h
    | insert s =>
      simp only [applyScript] at h
      cases hap : applyScript ops old with
      | none => rw [hap] at h; simp at h
      | some r2 =>
        rw [hap] at h
        simp only [Option.map_some', Option.some.injEq] at h
        subst h
        rw [ih old r2 hap]
        simp [scriptOutput, scriptSource]

/-- If the forward attempt on a pure order-reversal edit succeeds at all,
it already returns `old` itself. -/
theorem dmp_specEngine_rev_eq (x r : List String) (hne : x ≠ [])
    (h : dmp specEngine x x.reverse x = some r) : r = x := by
  unfold dmp at h
  cases heng : specEngine x x.reverse x with
  | none => rw [heng] at h; cases h
  | some patched =>
    have heng2 : applyScript (lcsDiff (x.reverse.length + x.length) x.reverse x) x =
        some patched := heng
    have hp : patched = x := by
      have happ := applyScript_some_eq _ _ _ heng2
      rw [scriptOutput_lcsDiff, scriptSource_lcsDiff, List.length_reverse,
        List.drop_length, List.append_nil] at happ
      exact happ
    rw [heng, hp] at h
    simp only [] at h
    have hrel : relines x = x := by simp [relines, hne]
    rw [hrel] at h
    split_ifs at h
    exact (Option.some.inj h).symm

/-- A fold whose every step preserves `dictGet` at `k` preserves it
overall. -/
theorem dictGet_foldl_of_step (step : List (String × String) →
    (String × String) → List (String × String)) (l : List (String × String))
    (cur : List (String × String)) (k : String)
    (h : ∀ cur kv, kv ∈ l → dictGet (step cur kv) k = dictGet cur k) :
    dictGet (l.foldl step cur) k = dictGet cur k := by
  induction l generalizing cur with
  | nil => rfl
  | cons kv l ih =>
    rw [List.foldl_cons, ih _ (fun cur kv hkv => h cur kv (List.mem_cons_of_mem _ hkv)),
      h cur kv (List.mem_cons_self _ _)]

/-- A key on which `old_tags` and `new_tags` agree is never changed by
the create stage. -/
theorem invert_tags_create_untouched (onlyTags : List String)
    (oldT newTags curT : List (String × String)) (k : String)
    (h : dictGet oldT k = dictGet (dictOf newTags) k) :
    dictGet (invert_tags_create onlyTags oldT (dictOf newTags) curT) k =
      dictGet curT k := by
  apply dictGet_foldl_of_step
  intro cur kv hkv
  by_cases hk : kv.1 = k
  · have h1 : dictGet oldT kv.1 = some kv.2 := by
      rw [hk, h, ← hk]
      exact dictGet_of_mem_dictOf newTags (by simpa using hkv)
    simp [h1]
  · split_ifs <;> first | rfl | exact dictGet_dictDel_ne _ _ _ hk

/-- A key on which `old_tags` and `new_tags` agree is never changed by
the modify stage. -/
theorem invert_tags_modify_untouched (onlyTags : List String)
    (oldT newTags curT : List (String × String)) (k : String)
    (h : dictGet oldT k = dictGet (dictOf newTags) k) :
    dictGet (invert_tags_modify onlyTags oldT (dictOf newTags) curT) k =
      dictGet curT k := by
  apply dictGet_foldl_of_step
  intro cur kv hkv
  by_cases hk : kv.1 = k
  · have h1 : dictGet oldT kv.1 = some kv.2 := by
      rw [hk, h, ← hk]
      exact dictGet_of_mem_dictOf newTags (by simpa using hkv)
    simp [h1]
  · by_cases h1 : dictGet oldT kv.1 = some kv.2
    · simp [h1]
    · by_cases h2 : onlyTags ≠ [] ∧ kv.1 ∉ onlyTags
      · simp [h1, h2]
      · rw [if_neg h1, if_neg h2]
        cases hw : dictGet oldT kv.1 with
        | none => rfl
        | some w =>
          change dictGet (if dictGet cur kv.1 ≠ some kv.2 then cur
            else dictSet cur kv.1 w) k = dictGet cur k
          by_cases h3 : dictGet cur kv.1 ≠ some kv.2
          · rw [if_pos h3]
          · rw [if_neg h3]
            exact dictGet_dictSet_ne _ _ _ _ hk

/-- A key on which `old_tags` and `new_tags` agree is never changed by
the delete stage. -/
theorem invert_tags_delete_untouched (onlyTags : List String)
    (oldTags newT curT : List (String × String)) (k : String)
    (h : dictGet (dictOf oldTags) k = dictGet newT k) :
    dictGet (invert_tags_delete onlyTags (dictOf oldTags) newT curT) k =
      dictGet curT k := by
  apply dictGet_foldl_of_step
  intro cur kv hkv
  by_cases hk : kv.1 = k
  · have h1 : dictGet newT kv.1 = some kv.2 := by
      rw [hk, ← h, ← hk]
      exact dictGet_of_mem_dictOf oldTags (by simpa using hkv)
    simp [h1]
  · split_ifs <;> first | rfl | exact dictGet_dictSet_ne _ _ _ _ hk

/-- Tag non-interference (source property): a key untouched by the target
edit keeps exactly the value from `current_tags`. -/
theorem invert_tags_untouched (onlyTags : List String)
    (oldTags newTags curTags : List (String × String)) (k : String)
    (h : dictGet (dictOf oldTags) k = dictGet (dictOf newTags) k) :
    dictGet (invert_tags onlyTags oldTags newTags curTags) k =
      dictGet (dictOf curTags) k := by
  unfold invert_tags
  rw [invert_tags_delete_untouched _ _ _ _ _ h,
    invert_tags_modify_untouched _ _ _ _ _ h,
    invert_tags_create_untouched _ _ _ _ _ h]

/-- In `only_tags` mode, a key outside `only_tags` is never changed by
the create stage. -/
theorem invert_tags_create_only (onlyTags : List String)
    (oldT newT curT : List (String × String)) (k : String)
    (hne : onlyTags ≠ []) (hk : k ∉ onlyTags) :
    dictGet (invert_tags_create onlyTags oldT newT curT) k = dictGet curT k := by
  apply dictGet_foldl_of_step
  intro cur kv hkv
  by_cases hkk : kv.1 = k
  · have h2 : onlyTags ≠ [] ∧ kv.1 ∉ onlyTags := ⟨hne, hkk ▸ hk⟩
    split_ifs <;> rfl
  · split_ifs <;> first | rfl | exact dictGet_dictDel_ne _ _ _ hkk

/-- In `only_tags` mode, a key outside `only_tags` is never changed by
the modify stage. -/
theorem invert_tags_modify_only (onlyTags : List String)
    (oldT newT curT : List (String × String)) (k : String)
    (hne : onlyTags ≠ []) (hk : k ∉ onlyTags) :
    dictGet (invert_tags_modify onlyTags oldT newT curT) k = dictGet curT k := by
  apply dictGet_foldl_of_step
  intro cur kv hkv
  by_cases hkk : kv.1 = k
  · by_cases h1 : dictGet oldT kv.1 = some kv.2
    · simp [h1]
    · have h2 : onlyTags ≠ [] ∧ kv.1 ∉ onlyTags := ⟨hne, hkk ▸ hk⟩
      rw [if_neg h1, if_pos h2]
  · by_cases h1 : dictGet oldT kv.1 = some kv.2
    · simp [h1]
    · by_cases h2 : onlyTags ≠ [] ∧ kv.1 ∉ onlyTags
      · simp [h1, h2]
      · rw [if_neg h1, if_neg h2]
        cases hw : dictGet oldT kv.1 with
        | none => rfl
        | some w =>
          change dictGet (if dictGet cur kv.1 ≠ some kv.2 then cur
            else dictSet cur kv.1 w) k = dictGet cur k
          by_cases h3 : dictGet cur kv.1 ≠ some kv.2
          · rw [if_pos h3]
          · rw [if_neg h3]
            exact dictGet_dictSet_ne _ _ _ _ hkk

/-- In `only_tags` mode, a key outside `only_tags` is never changed by
the delete stage. -/
theorem invert_tags_delete_only (onlyTags : List String)
    (oldT newT curT : List (String × String)) (k : String)
    (hne : onlyTags ≠ []) (hk : k ∉ onlyTags) :
    dictGet (invert_tags_delete onlyTags oldT newT curT) k = dictGet curT k := by
  apply dictGet_foldl_of_step
  intro cur kv hkv
  by_cases hkk : kv.1 = k
  · have h2 : onlyTags ≠ [] ∧ kv.1 ∉ onlyTags := ⟨hne, hkk ▸ hk⟩
    split_ifs <;> rfl
  · split_ifs <;> first | rfl | exact dictGet_dictSet_ne _ _ _ _ hkk

/-- In `only_tags` mode, tag reconciliation changes no key outside
`only_tags`. -/
theorem invert_tags_only (onlyTags : List String)
    (oldTags newTags curTags : List (String × String)) (k : String)
    (hne : onlyTags ≠ []) (hk : k ∉ onlyTags) :
    dictGet (invert_tags onlyTags oldTags newTags curTags) k =
      dictGet (dictOf curTags) k := by
  unfold invert_tags
  rw [invert_tags_delete_only _ _ _ _ _ hne hk,
    invert_tags_modify_only _ _ _ _ _ hne hk,
    invert_tags_create_only _ _ _ _ _ hne hk]

/-! ## Supporting lemmas for the claim theorems -/

theorem set_visible_originalE_visible (a c : Element) :
    (set_visible_originalE a c).visible = a.visible := by
  unfold set_visible_originalE
  split_ifs <;> rfl

theorem set_visible_originalE_version (a c : Element) :
    (set_visible_originalE a c).version = a.version := by
  unfold set_visible_originalE
  split_ifs <;> rfl

/-- The simple-revert branch of `_invert_element`: both visible, same
version, no `only_tags` — the stored element is `old` itself. -/
theorem invert_element_simple (engine : PatchEngine) (t : ElemType)
    (old new_ cur : Element) (hold : old.visible = true)
    (hnew : new_.visible = true) (hver : cur.version = new_.version) :
    invert_element [] engine t (some old) new_ cur = .ok (false, some old) := by
  unfold invert_element
  simp [hold, hnew, hver]

theorem invert_node_position_tags (o n c : Element) :
    (invert_node_position o n c).tags = c.tags := by
  unfold invert_node_position
  split_ifs <;> rfl

theorem invert_way_nodes_tags (engine : PatchEngine) (o n c : Element) :
    (invert_way_nodes engine o n c).tags = c.tags := by
  unfold invert_way_nodes
  dsimp only
  split_ifs <;> first
    | rfl
    | (cases dmp_retry_reverse engine (o.nd.map serNd) (n.nd.map serNd)
        (c.nd.map serNd) <;> rfl)

theorem invert_relation_members_tags (engine : PatchEngine) (o n c : Element) :
    (invert_relation_members engine o n c).tags = c.tags := by
  unfold invert_relation_members
  dsimp only
  split_ifs <;> first
    | rfl
    | (cases dmp_retry_reverse engine (o.member.map serMember)
        (n.member.map serMember) (c.member.map serMember) <;> rfl)

/-! ## Claim theorems -/

/-- C1: for every call of the diff-patch engine (`dmp`, and hence
`dmp_retry_reverse`) on sequences `old`, `new`, `current`, if it returns
a result rather than `None`, the result contains no duplicate elements,
no element absent from both `old` and `current`, and every element
present in both `old` and `current` — for every underlying patch engine. -/
theorem C1_dmp_postconditions (engine : PatchEngine)
    (old new_ current result : List String)
    (h : dmp engine old new_ current = some result ∨
      dmp_retry_reverse engine old new_ current = some result) :
    result.Nodup ∧ (∀ x ∈ result, x ∈ old ∨ x ∈ current) ∧
      (∀ x ∈ old, x ∈ current → x ∈ result) := by
  rcases h with h | h
  · exact dmp_checks engine old new_ current result h
  · unfold dmp_retry_reverse at h
    cases hfwd : dmp engine old new_ current with
    | some r =>
      rw [hfwd] at h
      cases h
      exact dmp_checks engine old new_ current result hfwd
    | none =>
      rw [hfwd] at h
      exact dmp_checks engine old new_.reverse current result h

/-- Witness for C1 at a concrete successful call. -/
theorem C1_dmp_postconditions_witness :
    (["a"] : List String).Nodup ∧
      (∀ x ∈ (["a"] : List String), x ∈ (["a"] : List String) ∨ x ∈ (["a"] : List String)) ∧
      (∀ x ∈ (["a"] : List String), x ∈ (["a"] : List String) → x ∈ (["a"] : List String)) :=
  C1_dmp_postconditions specEngine ["a"] ["a"] ["a"] ["a"] (Or.inl (by decide))

/-- C4 counterexample: with `old = current = ["a"]` (no independent later
edits) and `new = ["b"]`, the reconcile operation returns `None`, not
`old`: the patch from `new` to `current` contains a deletion of a `new`
token, which under `Patch_DeleteThreshold = 0` cannot apply to
`old = current`, and the reversed retry fails identically. -/
theorem C4_counterexample :
    dmp_retry_reverse specEngine ["a"] ["b"] ["a"] = none := by decide

/-- `dmp` on three equal, nonempty, duplicate-free sequences succeeds and
returns the sequence. -/
theorem dmp_specEngine_self (x : List String) (hne : x ≠ []) (hnd : x.Nodup) :
    dmp specEngine x x x = some x := by
  unfold dmp
  rw [specEngine_self]
  simp only [relines, if_neg hne]
  rw [if_neg (not_not_intro hnd),
    if_neg (not_not_intro (fun a ha => Or.inl ha)),
    if_neg (not_not_intro (fun a ha _ => ha))]

/-- C4 (amended): for `old = current`, the diff-patch round trip does not
hold for every `new` (tokens of `new` absent from `current` make both
attempts fail, see the counterexample), but it does hold beyond the
degenerate case: for every nonempty, duplicate-free sequence `x`,
`dmp_retry_reverse x x x = x`, and the reversed retry rescues every pure
order-reversal edit, `dmp_retry_reverse x x.reverse x = x` — if the
forward attempt succeeds its successful application already reproduces
the diff target `x`, and if it fails the retry diffs `x` against itself
and returns `old = x`. -/
theorem C4_round_trip_amended (x : List String) (hne : x ≠ []) (hnd : x.Nodup) :
    dmp_retry_reverse specEngine x x x = some x ∧
    dmp_retry_reverse specEngine x x.reverse x = some x := by
  constructor
  · unfold dmp_retry_reverse
    rw [dmp_specEngine_self x hne hnd]
  · unfold dmp_retry_reverse
    cases hfwd : dmp specEngine x x.reverse x with
    | some r =>
      rw [dmp_specEngine_rev_eq x r hne hfwd]
    | none =>
      rw [List.reverse_reverse]
      exact dmp_specEngine_self x hne hnd

/-- Witness for C4 (amended): at `x = ["a", "b"]` the forward attempt of
the order-reversal case fails and the reversed retry succeeds. -/
theorem C4_round_trip_amended_witness :
    (["a", "b"] : List String) ≠ [] ∧ (["a", "b"] : List String).Nodup ∧
      (dmp_retry_reverse specEngine ["a", "b"] ["a", "b"] ["a", "b"] = some ["a", "b"] ∧
       dmp_retry_reverse specEngine ["a", "b"] (["a", "b"] : List String).reverse ["a", "b"] =
         some ["a", "b"]) :=
  ⟨by decide, by decide, C4_round_trip_amended ["a", "b"] (by decide) (by decide)⟩

theorem advanced_revert_tags (onlyTags : List String) (engine : PatchEngine)
    (etype : ElemType) (o new_ cur : Element) :
    (advanced_revert onlyTags engine etype o new_ cur).tags =
      invert_tags onlyTags o.tags new_.tags cur.tags := by
  unfold advanced_revert
  dsimp only
  split_ifs
  · cases etype
    · rw [invert_node_position_tags]
    · rw [invert_way_nodes_tags]
    · rw [invert_relation_members_tags]
  · rfl

theorem advanced_revert_of_only (onlyTags : List String) (engine : PatchEngine)
    (etype : ElemType) (o new_ cur : Element) (h : onlyTags ≠ []) :
    advanced_revert onlyTags engine etype o new_ cur =
      { cur with tags := invert_tags onlyTags o.tags new_.tags cur.tags } := by
  unfold advanced_revert
  dsimp only
  rw [if_neg h]

/-- The advanced-revert branch of `_invert_element`: both visible, not the
simple case, `current` not deleted. -/
theorem invert_element_advanced (onlyTags : List String) (engine : PatchEngine)
    (etype : ElemType) (o new_ cur : Element)
    (hold : o.visible = true) (hnew : new_.visible = true)
    (hcurv : cur.visible = true)
    (hadv : ¬ (cur.version = new_.version ∧ onlyTags = [])) :
    invert_element onlyTags engine etype (some o) new_ cur =
      .ok (true, if advanced_revert onlyTags engine etype o new_ cur ≠ cur
        then some (advanced_revert onlyTags engine etype o new_ cur) else none) := by
  unfold invert_element
  simp [hold, hnew, hadv, hcurv]

/-- C2: for every modify entry that takes the advanced (three-way)
reconciliation path, and every tag key untouched by the target edit (the
`old` and `new` tag dicts agree on the key, including joint absence), the
output entity's value for that key — including its absence — equals
`current`'s value for that key, for all contents of `old`, `new` and
`current` and any `only_tags` set. -/
theorem C2_tag_noninterference (onlyTags : List String) (engine : PatchEngine)
    (etype : ElemType) (old new_ cur : Element) (k : String)
    (hold : old.visible = true) (hnew : new_.visible = true)
    (hcurv : cur.visible = true)
    (hadv : ¬ (cur.version = new_.version ∧ onlyTags = []))
    (huntouched : dictGet (dictOf old.tags) k = dictGet (dictOf new_.tags) k) :
    ∃ ro, invert_element onlyTags engine etype (some old) new_ cur = .ok (true, ro) ∧
      ∀ e, ro = some e →
        dictGet e.tags k = dictGet (dictOf cur.tags) k := by
  rw [invert_element_advanced onlyTags engine etype old new_ cur hold hnew hcurv hadv]
  refine ⟨_, rfl, ?_⟩
  intro e he
  by_cases hc : advanced_revert onlyTags engine etype old new_ cur ≠ cur
  · rw [if_pos hc] at he
    cases he
    rw [advanced_revert_tags]
    exact invert_tags_untouched onlyTags old.tags new_.tags cur.tags k huntouched
  · rw [if_neg hc] at he
    cases he

/-- Witness for C2 at a concrete advanced-revert input: the target edit
changed `amenity` from `cafe` to `bar`; an independent edit bumped the
version and added `name=X`; the untouched key `name` keeps `current`'s
value. -/
theorem C2_tag_noninterference_witness :
    ∃ ro, invert_element [] (fun _ _ _ => none) .node
        (some ⟨7, 2, true, [("amenity", "cafe")], "1.0", "2.0", [], [], none⟩)
        ⟨7, 3, true, [("amenity", "bar")], "1.0", "2.0", [], [], none⟩
        ⟨7, 4, true, [("amenity", "bar"), ("name", "X")], "1.0", "2.0", [], [], none⟩ =
        .ok (true, ro) ∧
      ∀ e, ro = some e →
        dictGet e.tags "name" =
          dictGet (dictOf ([("amenity", "bar"), ("name", "X")] : List (String × String))) "name" :=
  C2_tag_noninterference [] (fun _ _ _ => none) .node
    ⟨7, 2, true, [("amenity", "cafe")], "1.0", "2.0", [], [], none⟩
    ⟨7, 3, true, [("amenity", "bar")], "1.0", "2.0", [], [], none⟩
    ⟨7, 4, true, [("amenity", "bar"), ("name", "X")], "1.0", "2.0", [], [], none⟩
    "name" rfl rfl rfl (by decide) (by decide)

theorem set_visible_originalE_of_none (a c : Element) (h : a.visibleOriginal = none) :
    set_visible_originalE a c = { a with visibleOriginal := some c.visible } := by
  unfold set_visible_originalE
  rw [if_pos h]

/-- For a single-entry diff the three per-type loops reduce to one entry
iteration. -/
theorem invert_diff_loop_singleton (onlyTags : List String) (engine : PatchEngine)
    (t : ElemType) (e : DiffEntry) :
    invert_diff_loop onlyTags engine (singletonDiff t e) =
      invert_diff_entry onlyTags engine t initState e := by
  cases t <;>
    simp [invert_diff_loop, singletonDiff, updPT, List.foldlM_cons, List.foldlM_nil]

/-- The first entry iteration on a simple-revert modify entry records the
marked `old` and the latest version. -/
theorem invert_diff_entry_simple (engine : PatchEngine) (t : ElemType)
    (ts eid : Nat) (old new_ cur : Element)
    (hold : old.visible = true) (hnew : new_.visible = true)
    (hver : cur.version = new_.version) :
    invert_diff_entry [] engine t initState ⟨ts, eid, some old, new_, cur⟩ =
      .ok ⟨updPT initState.currentMap t (dictSet [] eid (set_visible_originalE old cur)),
           updPT initState.versionMap t (dictSet [] eid cur.version)⟩ := by
  unfold invert_diff_entry
  dsimp only [initState]
  have hie : invert_element [] engine t (some (set_visible_originalE old cur))
      (set_visible_originalE new_ cur) (set_visible_originalE cur cur) =
      .ok (false, some (set_visible_originalE old cur)) := by
    apply invert_element_simple
    · rw [set_visible_originalE_visible]; exact hold
    · rw [set_visible_originalE_visible]; exact hnew
    · rw [set_visible_originalE_version, set_visible_originalE_version]; exact hver
  simp [hie, dictGet]

/-- C3: for a modify entry (both `old` and `new` visible) with
`current.version == new.version` and `only_tags` empty, the element
recorded by `_invert_element` is exactly `old`, and the final
`invert_diff` output for that id is `old` with the version field restored
to the latest version seen for the id (here `current.version`). -/
theorem C3_simple_revert (engine : PatchEngine) (t : ElemType) (ts eid : Nat)
    (old new_ cur : Element)
    (hold : old.visible = true) (hnew : new_.visible = true)
    (hver : cur.version = new_.version)
    (hid : old.id = eid) (hvo : old.visibleOriginal = none) :
    invert_element [] engine t (some old) new_ cur = .ok (false, some old) ∧
    invert_diff [] engine (singletonDiff t ⟨ts, eid, some old, new_, cur⟩) t =
      .ok [{ old with version := cur.version }] ∧
    ∀ u, u ≠ t →
      invert_diff [] engine (singletonDiff t ⟨ts, eid, some old, new_, cur⟩) u = .ok [] := by
  refine ⟨invert_element_simple engine t old new_ cur hold hnew hver, ?_, ?_⟩
  · unfold invert_diff
    rw [invert_diff_loop_singleton,
      invert_diff_entry_simple engine t ts eid old new_ cur hold hnew hver]
    unfold invert_diff_final
    rw [set_visible_originalE_of_none old cur hvo]
    obtain ⟨oid, over, ovis, otags, olat, olon, ond, omem, ovo⟩ := old
    simp only at hid hvo hold
    subst hid hvo
    simp [Except.map, updPT, dictSet, dictGet, hold, List.filterMap]
  · intro u hu
    unfold invert_diff
    rw [invert_diff_loop_singleton,
      invert_diff_entry_simple engine t ts eid old new_ cur hold hnew hver]
    unfold invert_diff_final
    simp [Except.map, updPT, hu, initState]

/-- Witness for C3 at a concrete modify entry untouched since the target
edit. -/
theorem C3_simple_revert_witness :
    invert_element [] (fun _ _ _ => none) .node
        (some ⟨7, 2, true, [("amenity", "cafe")], "1.0", "2.0", [], [], none⟩)
        ⟨7, 3, true, [("amenity", "bar")], "1.0", "2.0", [], [], none⟩
        ⟨7, 3, true, [("amenity", "bar")], "1.0", "2.0", [], [], none⟩ =
      .ok (false, some ⟨7, 2, true, [("amenity", "cafe")], "1.0", "2.0", [], [], none⟩) ∧
    invert_diff [] (fun _ _ _ => none)
        (singletonDiff .node ⟨100, 7,
          some ⟨7, 2, true, [("amenity", "cafe")], "1.0", "2.0", [], [], none⟩,
          ⟨7, 3, true, [("amenity", "bar")], "1.0", "2.0", [], [], none⟩,
          ⟨7, 3, true, [("amenity", "bar")], "1.0", "2.0", [], [], none⟩⟩) .node =
      .ok [⟨7, 3, true, [("amenity", "cafe")], "1.0", "2.0", [], [], none⟩] ∧
    ∀ u, u ≠ ElemType.node →
      invert_diff [] (fun _ _ _ => none)
        (singletonDiff .node ⟨100, 7,
          some ⟨7, 2, true, [("amenity", "cafe")], "1.0", "2.0", [], [], none⟩,
          ⟨7, 3, true, [("amenity", "bar")], "1.0", "2.0", [], [], none⟩,
          ⟨7, 3, true, [("amenity", "bar")], "1.0", "2.0", [], [], none⟩⟩) u = .ok [] :=
  C3_simple_revert (fun _ _ _ => none) .node 100 7
    ⟨7, 2, true, [("amenity", "cafe")], "1.0", "2.0", [], [], none⟩
    ⟨7, 3, true, [("amenity", "bar")], "1.0", "2.0", [], [], none⟩
    ⟨7, 3, true, [("amenity", "bar")], "1.0", "2.0", [], [], none⟩
    rfl rfl rfl rfl rfl

/-- C7: per-entity inversion errors exactly on the illegal
`(old.visible, new.visible)` pairs; every legal pair (create, modify,
delete) completes without raising. The two distinct Python errors are
also characterized: the explicit invalid-state exception fires on
`(visible = false, visible = false)` with `old` present, while the
`(old absent, new invisible)` combination raises a `TypeError` by
subscripting `None`. -/
theorem C7_visibility_transitions (onlyTags : List String) (engine : PatchEngine)
    (etype : ElemType) (old : Option Element) (new_ cur : Element) :
    ((∃ e, invert_element onlyTags engine etype old new_ cur = .error e) ↔
      ¬ legal_transition old new_) ∧
    (invert_element onlyTags engine etype old new_ cur = .error .typeError ↔
      old = none ∧ new_.visible = false) ∧
    (invert_element onlyTags engine etype old new_ cur = .error .invalidState ↔
      (∃ o, old = some o ∧ o.visible = false) ∧ new_.visible = false) := by
  unfold invert_element legal_transition
  rcases old with _ | o
  · cases hn : new_.visible
    · simp [hn]
    · simp only [hn]
      split_ifs <;> simp_all
  · cases ho : o.visible <;> cases hn : new_.visible
    · simp [ho, hn]
    · simp only [ho, hn]
      split_ifs <;> simp_all
    · simp only [ho, hn]
      split_ifs <;> simp_all
    · simp only [ho, hn]
      split_ifs <;> simp_all

/-- C10 counterexample: with non-empty `only_tags`, a modify entry whose
`current` is deleted (`visible = false`) — even with
`current.version == new.version` — does not take the advanced-revert path
(the fix counter is not incremented: first component `false`) and
contributes nothing, refuting "every modify entry takes the
advanced-revert path". -/
theorem C10_counterexample :
    invert_element ["amenity"] (fun _ _ _ => none) .node
      (some ⟨7, 2, true, [("amenity", "cafe")], "1.0", "2.0", [], [], none⟩)
      ⟨7, 3, true, [("amenity", "bar")], "1.0", "2.0", [], [], none⟩
      ⟨7, 3, false, [], "1.0", "2.0", [], [], none⟩ = .ok (false, none) := by decide

/-- C10 (amended): with a non-empty `only_tags` set, create and delete
entries contribute nothing; a modify entry with `current` visible takes
the advanced-revert path even when `current.version == new.version` (the
wholesale replace with `old` is disabled), its tag reconciliation changes
only keys in `only_tags`, and position and ordered-reference
reconciliation are skipped (the recorded entity keeps `current`'s
position and reference lists); a modify entry whose `current` is deleted
contributes nothing. -/
theorem C10_only_tags_amended (onlyTags : List String) (engine : PatchEngine)
    (etype : ElemType) (old : Option Element) (new_ cur : Element)
    (honly : onlyTags ≠ []) :
    (((old = none ∨ ∃ o, old = some o ∧ o.visible = false) ∧ new_.visible = true) →
      invert_element onlyTags engine etype old new_ cur = .ok (false, none)) ∧
    ((∃ o, old = some o ∧ o.visible = true) → new_.visible = false →
      invert_element onlyTags engine etype old new_ cur = .ok (false, none)) ∧
    (∀ o, old = some o → o.visible = true → new_.visible = true → cur.visible = true →
      ∃ ro, invert_element onlyTags engine etype old new_ cur = .ok (true, ro) ∧
        ∀ e, ro = some e →
          e.lat = cur.lat ∧ e.lon = cur.lon ∧ e.nd = cur.nd ∧ e.member = cur.member ∧
          ∀ k, k ∉ onlyTags → dictGet e.tags k = dictGet (dictOf cur.tags) k) ∧
    (∀ o, old = some o → o.visible = true → new_.visible = true → cur.visible = false →
      invert_element onlyTags engine etype old new_ cur = .ok (false, none)) := by
  refine ⟨?_, ?_, ?_, ?_⟩
  · rintro ⟨hfalsy, hnew⟩
    rcases hfalsy with rfl | ⟨o, rfl, ho⟩
    · unfold invert_element
      simp [hnew, honly]
    · unfold invert_element
      simp [hnew, honly, ho]
  · rintro ⟨o, rfl, ho⟩ hnew
    unfold invert_element
    simp [ho, hnew, honly]
  · rintro o rfl ho hnew hcur
    have hadv : ¬ (cur.version = new_.version ∧ onlyTags = []) := by
      rintro ⟨-, hc⟩
      exact honly hc
    rw [invert_element_advanced onlyTags engine etype o new_ cur ho hnew hcur hadv]
    refine ⟨_, rfl, ?_⟩
    intro e he
    by_cases hc : advanced_revert onlyTags engine etype o new_ cur ≠ cur
    · rw [if_pos hc] at he
      cases he
      rw [advanced_revert_of_only onlyTags engine etype o new_ cur honly]
      refine ⟨rfl, rfl, rfl, rfl, ?_⟩
      intro k hk
      exact invert_tags_only onlyTags o.tags new_.tags cur.tags k honly hk
    · rw [if_neg hc] at he
      cases he
  · rintro o rfl ho hnew hcur
    unfold invert_element
    have hadv : ¬ (cur.version = new_.version ∧ onlyTags = []) := by
      rintro ⟨-, hc⟩
      exact honly hc
    simp [ho, hnew, hcur, hadv]

/-- Witness for C10 (amended) at a concrete create entry in `only_tags`
mode. -/
theorem C10_only_tags_amended_witness :
    invert_element ["x"] (fun _ _ _ => none) .node none
      ⟨7, 1, true, [], "0", "0", [], [], none⟩
      ⟨7, 1, true, [], "0", "0", [], [], none⟩ = .ok (false, none) :=
  (C10_only_tags_amended ["x"] (fun _ _ _ => none) .node none
    ⟨7, 1, true, [], "0", "0", [], [], none⟩
    ⟨7, 1, true, [], "0", "0", [], [], none⟩ (by decide)).1 ⟨Or.inl rfl, rfl⟩

/-- C8 counterexample: with the data horizon equal to the partition
timestamp and the transition count equal to the requested id count
(`1 = 1`), the code classifies the attempt as stale instead of letting it
pass the completeness check — the staleness test runs first and uses
`<=`, not strict "older than". -/
theorem C8_counterexample : partition_check 5 5 1 1 = .stale := by decide

/-- C8 (amended): a partition attempt passes the checks exactly when the
mirror's data horizon is strictly newer than the partition timestamp and
the transition count equals the requested id count; it is classified
stale whenever the horizon is at or before the partition timestamp
(regardless of counts), and source-incomplete when the horizon is fresh
but the counts differ. -/
theorem C8_partition_check_amended (b t p q : Nat) :
    (partition_check b t p q = .passed ↔ t < b ∧ p = q) ∧
    (partition_check b t p q = .stale ↔ b ≤ t) ∧
    (partition_check b t p q = .incomplete ↔ t < b ∧ p ≠ q) := by
  unfold partition_check
  by_cases h1 : b ≤ t
  · simp [h1, show ¬ t < b by omega]
  · by_cases h2 : p = q <;> simp [h1, h2, show t < b by omega]

/-- C9 counterexample: the wrapper has no 4xx-class short-circuit — a
call that always fails with an HTTP 404 error is retried until the time
budget is exhausted (ten attempts under this clock trace), instead of the
error being raised immediately after the first attempt. -/
theorem C9_counterexample :
    retry_exponential 10 1 (fun n => (n : ℚ)) (fun _ => 0)
        (fun _ => (.error "HTTP 404 Bad Request" : Except String Unit)) 20 =
      some (.error "HTTP 404 Bad Request", 10) := by
  norm_num [retry_exponential, retry_loop, nextSleep]

/-- An error result of the retry loop is the underlying error of the last
attempt, raised exactly when the budget check failed with the current
sleep interval. -/
theorem retry_loop_error_spec {α ε : Type} (timeoutS start : ℚ)
    (r j : Nat → ℚ) (a : Nat → Except ε α) :
    ∀ fuel n e k, retry_loop timeoutS r j a fuel n (sleepSeq start j n) =
        some (.error e, k) →
      n + 1 ≤ k ∧ a (k - 1) = .error e ∧
        r k + sleepSeq start j (k - 1) - r 0 > timeoutS := by
  intro fuel
  induction fuel with
  | zero => intro n e k h; cases h
  | succ fuel ih =>
    intro n e k h
    unfold retry_loop at h
    cases ha : a n with
    | ok v =>
      simp only [ha] at h
      cases h
    | error e2 =>
      simp only [ha] at h
      by_cases hb : r (n + 1) + sleepSeq start j n - r 0 > timeoutS
      · rw [if_pos hb] at h
        cases h
        refine ⟨le_refl _, ?_, ?_⟩
        · simpa using ha
        · simpa using hb
      · rw [if_neg hb] at h
        have := ih (n + 1) e k (by
          have hns : nextSleep (j n) (sleepSeq start j n) = sleepSeq start j (n + 1) := rfl
          rwa [hns] at h)
        exact ⟨by omega, this.2.1, this.2.2⟩

/-- C9 (amended): the wrapper re-invokes a failing call — of any error
class, including 4xx — with jittered, capped, growing sleep intervals
while the elapsed-time budget allows it; when the budget is exhausted it
raises the underlying error of the last attempt; the interval sequence is
capped at 1800 seconds, is non-decreasing, and at most doubles per step
(jitter in `[0, 1]`). -/
theorem C9_retry_amended {α ε : Type} (timeoutS start : ℚ) (r j : Nat → ℚ)
    (a : Nat → Except ε α) :
    (∀ fuel n sleep e, a n = .error e →
      ¬ (r (n + 1) + sleep - r 0 > timeoutS) →
      retry_loop timeoutS r j a (fuel + 1) n sleep =
        retry_loop timeoutS r j a fuel (n + 1) (nextSleep (j n) sleep)) ∧
    (∀ fuel k e, retry_exponential timeoutS start r j a fuel = some (.error e, k) →
      1 ≤ k ∧ a (k - 1) = .error e ∧
        r k + sleepSeq start j (k - 1) - r 0 > timeoutS) ∧
    ((∀ n, 0 ≤ j n ∧ j n ≤ 1) → 0 < start → start ≤ 1800 →
      ∀ n, 0 < sleepSeq start j n ∧ sleepSeq start j n ≤ 1800 ∧
        sleepSeq start j n ≤ sleepSeq start j (n + 1) ∧
        sleepSeq start j (n + 1) ≤ 2 * sleepSeq start j n) := by
  refine ⟨?_, ?_, ?_⟩
  · intro fuel n sleep e ha hb
    conv_lhs => rw [retry_loop]
    rw [ha]
    simp only [if_neg hb]
  · intro fuel k e h
    exact retry_loop_error_spec timeoutS start r j a fuel 0 e k h
  · intro hj hs hcap
    have key : ∀ n, 0 < sleepSeq start j n ∧ sleepSeq start j n ≤ 1800 := by
      intro n
      induction n with
      | zero => exact ⟨hs, hcap⟩
      | succ n ihn =>
        constructor
        · apply lt_min
          · have h1 : (0 : ℚ) < 1 + j n := by linarith [(hj n).1]
            exact mul_pos ihn.1 h1
          · norm_num
        · exact min_le_right _ _
    intro n
    refine ⟨(key n).1, (key n).2, ?_, ?_⟩
    · show sleepSeq start j n ≤ min (sleepSeq start j n * (1 + j n)) 1800
      apply le_min
      · nlinarith [(key n).1, (hj n).1]
      · exact (key n).2
    · calc sleepSeq start j (n + 1) ≤ sleepSeq start j n * (1 + j n) :=
          min_le_left _ _
        _ ≤ 2 * sleepSeq start j n := by nlinarith [(key n).1, (hj n).2]

/-- Witness for C9 (amended), part one, at a concrete failing attempt
inside the budget: the loop continues to the next attempt. -/
theorem C9_retry_amended_witness :
    retry_loop 10 (fun n => (n : ℚ)) (fun _ => 0)
        (fun _ => (.error "HTTP 404 Bad Request" : Except String Unit)) 1 0 1 =
      retry_loop 10 (fun n => (n : ℚ)) (fun _ => 0)
        (fun _ => (.error "HTTP 404 Bad Request" : Except String Unit)) 0 1
        (nextSleep 0 1) :=
  (C9_retry_amended 10 1 (fun n => (n : ℚ)) (fun _ => 0)
    (fun _ => (.error "HTTP 404 Bad Request" : Except String Unit))).1
    0 0 1 "HTTP 404 Bad Request" rfl (by norm_num)

/-! ## Supporting lemmas and the chain-scenario proofs for C5 -/

/-- A fold whose steps fix the state returns the state. -/
theorem foldlM_of_skip {σ β : Type} (f : σ → β → Except PyError σ)
    (l : List β) (st : σ) (h : ∀ x ∈ l, f st x = .ok st) :
    l.foldlM f st = .ok st := by
  induction l with
  | nil => rfl
  | cons x l ih =>
    rw [List.foldlM_cons, h x (List.mem_cons_self _ _)]
    exact ih (fun y hy => h y (List.mem_cons_of_mem _ hy))

theorem range_filter_lt_eq (N m : Nat) :
    (List.range N).filter (fun k => decide (k < m)) = List.range (min m N) := by
  induction N with
  | zero => simp
  | succ N ih =>
    rw [List.range_succ, List.filter_append, ih]
    by_cases h : N < m
    · have h1 : min m (N + 1) = min m N + 1 ∨ min m (N + 1) = N + 1 := by omega
      have hmin : min m N = N := by omega
      have hmin2 : min m (N + 1) = N + 1 := by omega
      simp [h, hmin, hmin2, List.range_succ]
    · have hmin : min m N = m := by omega
      have hmin2 : min m (N + 1) = m := by omega
      simp [h, hmin, hmin2]

theorem deleting_chainState (i : Nat) :
    deleting_of (chainState i) = chainDeleting i := by
  funext t
  cases t with
  | node => simp [deleting_of, chainState, chainDeleting, chainPoint]
  | way => simp [deleting_of, chainState, chainDeleting]
  | relation =>
    have hfilter : ((List.range i).map (fun k => deadRel (k + 1))).filter
        (fun e => e.visible = false) = (List.range i).map (fun k => deadRel (k + 1)) := by
      apply List.filter_eq_self.mpr
      intro a ha
      rcases List.mem_map.mp ha with ⟨k, -, rfl⟩
      simp [deadRel, chainRel]
    simp only [deleting_of, chainState, chainDeleting, hfilter, List.map_map]
    apply List.map_congr_left
    intro k _
    simp [Function.comp, deadRel, chainRel]

theorem chainMapRel_keys_nodup (i : Nat) : (dictKeys (chainMapRel i)).Nodup := by
  have : dictKeys (chainMapRel i) = (List.range i).map (· + 1) := by
    simp [dictKeys, chainMapRel, List.map_map, Function.comp]
  rw [this]
  exact List.Nodup.map (fun a b h => by omega) (List.nodup_range i)

theorem chainInvertMap_rel (i : Nat) :
    dictOf ((chainState i .relation).map (fun e => (e.id, e))) = chainMapRel i := by
  have h1 : (chainState i .relation).map (fun e => (e.id, e)) = chainMapRel i := by
    simp [chainState, chainMapRel, List.map_map, Function.comp, deadRel, chainRel]
  rw [h1]
  exact dictOf_self_of_nodup _ (chainMapRel_keys_nodup i)

theorem chainMapRel_get_lt (i j : Nat) (h : j < i) :
    dictGet (chainMapRel i) (j + 1) = some (deadRel (j + 1)) := by
  apply dictGet_of_mem_nodup _ (chainMapRel_keys_nodup i)
  simp only [chainMapRel, List.mem_map]
  exact ⟨j, by simp [List.mem_range, h]⟩

theorem chainMapRel_get_self (i : Nat) :
    dictGet (chainMapRel i) (i + 1) = none := by
  apply dictGet_eq_none_of_not_mem
  simp only [chainMapRel, dictKeys, List.map_map]
  intro hc
  rcases List.mem_map.mp hc with ⟨k, hk, he⟩
  simp only [Function.comp, List.mem_range] at hk he
  omega

theorem chainQuery_at (N i : Nat) :
    chainQuery N (chainDeleting i) .relation =
      (List.range (min (i + 1) N)).map (fun k => chainRel (k + 1)) := by
  simp only [chainQuery]
  rw [List.filter_map]
  have hcong : (List.range N).filter
      ((fun x => if x = 1 then decide (0 ∈ chainDeleting i .node)
        else decide ((x - 1) ∈ chainDeleting i .relation)) ∘ (· + 1)) =
      (List.range N).filter (fun k => decide (k < i + 1)) := by
    apply List.filter_congr
    intro k _
    simp only [Function.comp]
    by_cases hk : k + 1 = 1
    · have hk0 : k = 0 := by omega
      subst hk0
      simp [chainDeleting]
    · have hk1 : 1 ≤ k := by omega
      simp only [hk, if_false, chainDeleting]
      have : (k + 1 - 1) = k := by omega
      rw [this]
      by_cases hki : k < i + 1
      · have : k ∈ (List.range i).map (· + 1) := by
          rcases Nat.exists_eq_add_of_le hk1 with ⟨m, rfl⟩
          exact List.mem_map.mpr ⟨m, by simp [List.mem_range]; omega, by omega⟩
        simp [this, hki]
      · have : k ∉ (List.range i).map (· + 1) := by
          intro hc
          rcases List.mem_map.mp hc with ⟨m, hm, he⟩
          simp [List.mem_range] at hm
          omega
        simp [this, hki]
  rw [hcong, range_filter_lt_eq, List.map_map]
  rfl

theorem chainInvertMap_at (i : Nat) : chainInvertMap i .relation = chainMapRel i :=
  chainInvertMap_rel i

theorem process_parent_skip (i j : Nat) (hj : j < i) (st : ParentLoopState) :
    process_parent true (chainDeleting i) (chainInvertMap i) .relation st
      (chainRel (j + 1)) = .ok st := by
  unfold process_parent
  rw [if_neg (by simp)]
  have hid : (chainRel (j + 1)).id = j + 1 := rfl
  rw [hid, chainInvertMap_at, chainMapRel_get_lt i j hj]
  have hvis : (Option.getD (some (deadRel (j + 1))) (chainRel (j + 1))).visible = false := by
    simp [deadRel, chainRel]
  rw [if_pos hvis]

theorem chainState_upd (i : Nat) :
    updPT (chainState i) .relation
      (chainState i .relation ++ [deadRel (i + 1)]) = chainState (i + 1) := by
  funext t
  cases t <;> simp [updPT, chainState, List.range_succ]

theorem process_parent_patch (i c : Nat) (b : Bool) :
    process_parent true (chainDeleting i) (chainInvertMap i) .relation
      ⟨chainState i, chainInternal, c, b⟩ (chainRel (i + 1)) =
      .ok ⟨chainState (i + 1), chainInternal, c + 1, true⟩ := by
  by_cases hi : i = 0
  · subst hi
    have step : process_parent true (chainDeleting 0) (chainInvertMap 0) .relation
        ⟨chainState 0, chainInternal, c, b⟩ (chainRel (0 + 1)) =
        .ok ⟨updPT (chainState 0) .relation
          (chainState 0 .relation ++ [deadRel (0 + 1)]), chainInternal, c + 1, true⟩ := rfl
    rw [step, chainState_upd 0]
  · unfold process_parent
    rw [if_neg (by simp)]
    have hid : (chainRel (i + 1)).id = i + 1 := rfl
    rw [hid, chainInvertMap_at, chainMapRel_get_self i]
    have hvis : ¬ (Option.getD none (chainRel (i + 1))).visible = false := by
      simp [chainRel]
    rw [if_neg hvis]
    simp only [Option.getD_none]
    have h1 : ¬ (i + 1 = 1) := by omega
    have hcrmem : (chainRel (i + 1)).member =
        [{ type := .relation, ref := i, role := "" }] := by
      simp only [chainRel, h1, if_false]
      have : i + 1 - 1 = i := by omega
      rw [this]
    have hmem : i ∈ chainDeleting i .relation := by
      simp only [chainDeleting]
      exact List.mem_map.mpr ⟨i - 1, by simp [List.mem_range]; omega, by omega⟩
    have hfil : ((chainRel (i + 1)).member.filter
        (fun m => m.ref ∉ chainDeleting i m.type)) = [] := by
      rw [hcrmem]
      simp [hmem]
    have hremR : (((chainRel (i + 1)).member.filter
        (fun m => m.type = ElemType.relation ∧ m.ref ∈ chainDeleting i ElemType.relation)).map
          Member.ref).dedup = [i] := by
      rw [hcrmem]
      simp [hmem]
    have hremN : (((chainRel (i + 1)).member.filter
        (fun m => m.type = ElemType.node ∧ m.ref ∈ chainDeleting i ElemType.node)).map
          Member.ref).dedup = [] := by
      rw [hcrmem]
      simp
    have hremW : (((chainRel (i + 1)).member.filter
        (fun m => m.type = ElemType.way ∧ m.ref ∈ chainDeleting i ElemType.way)).map
          Member.ref).dedup = [] := by
      rw [hcrmem]
      simp
    simp only [hfil, hremR, hremN, hremW]
    unfold apply_parent_change
    rw [if_neg (by
      simp [hremR]
      intro _ _
      exact ⟨⟨.relation, i, ""⟩, by rw [hcrmem]; simp, rfl, hmem⟩)]
    dsimp only
    simp only [hid, chainInvertMap_at, chainMapRel_get_self i, Option.isSome_none,
      Bool.false_eq_true, if_false, if_true]
    have helem : (⟨i + 1, (chainRel (i + 1)).version, false, (chainRel (i + 1)).tags,
        (chainRel (i + 1)).lat, (chainRel (i + 1)).lon, (chainRel (i + 1)).nd, [],
        (chainRel (i + 1)).visibleOriginal⟩ : Element) = deadRel (i + 1) := by
      simp [deadRel, hid]
    rw [helem, chainState_upd i]

theorem chain_fold (N i c : Nat) (hiN : i ≤ N) :
    process_parents_all true (chainDeleting i) (chainInvertMap i)
      (chainQuery N (chainDeleting i)) ⟨chainState i, chainInternal, c, false⟩ =
      if i < N then .ok ⟨chainState (i + 1), chainInternal, c + 1, true⟩
      else .ok ⟨chainState i, chainInternal, c, false⟩ := by
  unfold process_parents_all
  have hnode : chainQuery N (chainDeleting i) ElemType.node = [] := rfl
  have hway : chainQuery N (chainDeleting i) ElemType.way = [] := rfl
  simp only [List.foldlM_cons, List.foldlM_nil, hnode, hway, pure_bind, bind_pure]
  rw [chainQuery_at N i]
  by_cases hlt : i < N
  · have hmin : min (i + 1) N = i + 1 := by omega
    rw [hmin, List.range_succ, List.map_append, List.foldlM_append]
    rw [foldlM_of_skip _ _ _ (by
      intro x hx
      rcases List.mem_map.mp hx with ⟨j, hj, rfl⟩
      exact process_parent_skip i j (List.mem_range.mp hj) _)]
    rw [if_pos hlt]
    simp only [show (Except.ok ⟨chainState i, chainInternal, c, false⟩ :
        Except PyError ParentLoopState) =
      pure ⟨chainState i, chainInternal, c, false⟩ from rfl, pure_bind]
    simp only [List.map_cons, List.map_nil, List.foldlM_cons, List.foldlM_nil]
    rw [process_parent_patch i c false]
    rfl
  · have hieq : i = N := by omega
    subst hieq
    have hmin : min (i + 1) i = i := by omega
    rw [hmin]
    rw [foldlM_of_skip _ _ _ (by
      intro x hx
      rcases List.mem_map.mp hx with ⟨j, hj, rfl⟩
      exact process_parent_skip i j (List.mem_range.mp hj) _)]
    rw [if_neg (by omega)]

theorem chain_loop (N : Nat) : ∀ fuel i c, i ≤ N →
    update_parents_loop (chainQuery N) true fuel (chainState i) chainInternal c =
      if N + 1 ≤ i + fuel then .ok (chainState N, c + (N - i))
      else .error .recursionError := by
  intro fuel
  induction fuel with
  | zero =>
    intro i c hi
    rw [if_neg (by omega)]
    rfl
  | succ fuel ih =>
    intro i c hi
    rw [update_parents_loop]
    dsimp only
    rw [deleting_chainState i]
    rw [if_neg (by simp [chainDeleting])]
    rw [show (fun t => dictOf ((chainState i t).map (fun e => (e.id, e)))) =
      chainInvertMap i from rfl]
    rw [chain_fold N i c hi]
    by_cases hlt : i < N
    · rw [if_pos hlt]
      dsimp only
      rw [if_neg (by simp)]
      rw [ih (i + 1) (c + 1) (by omega)]
      have harith : i + 1 + fuel = i + (fuel + 1) := by omega
      rw [harith]
      by_cases hcond : N + 1 ≤ i + (fuel + 1)
      · rw [if_pos hcond, if_pos hcond]
        have : c + 1 + (N - (i + 1)) = c + (N - i) := by omega
        rw [this]
      · rw [if_neg hcond, if_neg hcond]
    · rw [if_neg hlt]
      dsimp only
      rw [if_pos rfl]
      have hieq : i = N := by omega
      subst hieq
      rw [if_pos (by omega)]
      have : c + (i - i) = c := by omega
      rw [this]

theorem chainState_zero : chainState 0 = chainInvert := by
  funext t
  cases t <;> simp [chainState, chainInvert]

theorem chainInternal_init :
    (fun t => (chainInvert t).map Element.id) = chainInternal := by
  funext t
  cases t <;> simp [chainInvert, chainInternal, chainPoint]

/-- C5: the parent consistency fixer performs at most 10 query-and-patch
iterations: with no tombstoned entity in the inverted set it returns
count 0 immediately, independently of the query function (hence without
querying); it returns as soon as an iteration changes nothing; and on a
chain of N nested parent references it resolves fully (count N, all N
relations patched and tombstoned) for N < 10 while raising the fatal
`RecursionError` for N >= 10. -/
theorem C5_update_parents :
    (∀ (query : (ElemType → List Nat) → ElemType → List Element) (fix : Bool)
      (invert0 : ElemType → List Element),
      (∀ t, ∀ e ∈ invert0 t, e.visible = true) →
      update_parents query fix invert0 = .ok (invert0, 0)) ∧
    (∀ N, N < 10 →
      update_parents_count (chainQuery N) true chainInvert = .ok N ∧
      update_parents_at (chainQuery N) true chainInvert .relation =
        .ok ((List.range N).map (fun k => deadRel (k + 1)))) ∧
    (∀ N, 10 ≤ N →
      update_parents_count (chainQuery N) true chainInvert = .error .recursionError) := by
  have hmain : ∀ N, update_parents (chainQuery N) true chainInvert =
      if N + 1 ≤ 10 then .ok (chainState N, N) else .error .recursionError := by
    intro N
    unfold update_parents
    rw [chainInternal_init, ← chainState_zero, chain_loop N 10 0 0 (Nat.zero_le N)]
    by_cases hc : N + 1 ≤ 0 + 10
    · rw [if_pos hc, if_pos (by omega)]
      have : 0 + (N - 0) = N := by omega
      rw [this]
    · rw [if_neg hc, if_neg (by omega)]
  refine ⟨?_, ?_, ?_⟩
  · intro query fix invert0 hvis
    unfold update_parents
    rw [update_parents_loop]
    dsimp only
    have hdel : ∀ t, deleting_of invert0 t = [] := by
      intro t
      simp only [deleting_of]
      rw [List.filter_eq_nil_iff.mpr (by
        intro a ha
        simp [hvis t a ha])]
      rfl
    rw [if_pos ⟨by rw [hdel]; rfl, by rw [hdel]; rfl, by rw [hdel]; rfl⟩]
  · intro N hN
    constructor
    · unfold update_parents_count
      rw [hmain N, if_pos (by omega)]
      rfl
    · unfold update_parents_at
      rw [hmain N, if_pos (by omega)]
      rfl
  · intro N hN
    unfold update_parents_count
    rw [hmain N, if_neg (by omega)]
    rfl

/-- Witness for C5: an all-visible invert set returns zero for any query,
a chain of 3 resolves with count 3, and a chain of 12 exhausts the
ceiling. -/
theorem C5_update_parents_witness :
    update_parents (fun _ _ => []) true (fun _ => []) = .ok ((fun _ => []), 0) ∧
    update_parents_count (chainQuery 3) true chainInvert = .ok 3 ∧
    update_parents_count (chainQuery 12) true chainInvert = .error .recursionError :=
  ⟨C5_update_parents.1 (fun _ _ => []) true (fun _ => []) (by simp),
   (C5_update_parents.2.1 3 (by decide)).1,
   C5_update_parents.2.2 12 (by decide)⟩

/-! ## Proofs about the relation topological sort (C6) -/

/-- One iteration of the peel loop preserves the invariant. -/
theorem peelInv_step (rels : List Element) (r : Element) (queue2 : List Element)
    (st : List (Nat × Element × List Nat)) (res hid : List Element)
    (hinv : peelInv rels (r :: queue2) st res hid) :
    peelInv rels
      ((((st.map (fun p => (p.1, p.2.1, p.2.2.filter (fun x => x ≠ r.id)))).filter
          (fun p => p.2.2 = [])).map (fun p => p.2.1)).reverse ++ queue2)
      ((st.map (fun p => (p.1, p.2.1, p.2.2.filter (fun x => x ≠ r.id)))).filter
          (fun p => ¬ p.2.2 = []))
      (if r.visible then res ++ [r] else res)
      (if r.visible then hid else hid ++ [r]) := by
  obtain ⟨hP, hD, hQ, hRv, hHv, hORD, hSUB⟩ := hinv
  have hmem2 : ∀ x : Nat,
      x ∈ ((if r.visible then res ++ [r] else res) ++
          (if r.visible then hid else hid ++ [r])).map Element.id ↔
        x ∈ (res ++ hid).map Element.id ∨ x = r.id := by
    intro x
    by_cases hr : r.visible = true
    · simp only [if_pos hr, List.map_append, List.mem_append, List.map_cons,
        List.map_nil, List.mem_singleton]
      tauto
    · simp only [if_neg hr, List.map_append, List.mem_append, List.map_cons,
        List.map_nil, List.mem_singleton]
      tauto
  refine ⟨?_, ?_, ?_, ?_, ?_, ?_, ?_⟩
  · -- permutation conservation, via counts
    rw [List.perm_iff_count] at hP ⊢
    intro a
    have h1 := hP a
    have hperm := ((List.filter_append_perm
        (fun p : Nat × Element × List Nat => decide (p.2.2 = []))
        (st.map (fun p => (p.1, p.2.1, p.2.2.filter (fun x => x ≠ r.id))))).map
        (fun p => p.2.1)).count_eq a
    simp only [List.map_append, List.count_append] at hperm
    have h3 : ((st.map (fun p => (p.1, p.2.1, p.2.2.filter (fun x => x ≠ r.id)))).map
        (fun p : Nat × Element × List Nat => p.2.1)) = st.map (fun p => p.2.1) := by
      simp [List.map_map]
    rw [h3] at hperm
    simp only [List.count_append, List.count_reverse, List.count_cons] at h1 ⊢
    by_cases hr : r.visible = true
    · simp only [if_pos hr, List.count_append, List.count_singleton]
      simp only [← decide_not] at hperm ⊢
      omega
    · simp only [if_neg hr, List.count_append, List.count_singleton]
      simp only [← decide_not] at hperm ⊢
      omega
  · -- dependency-state characterization
    intro p' hp'
    rw [List.mem_filter] at hp'
    obtain ⟨hp'mem, hp'ne⟩ := hp'
    rw [List.mem_map] at hp'mem
    obtain ⟨q, hq, rfl⟩ := hp'mem
    obtain ⟨hqiff, _⟩ := hD q hq
    refine ⟨?_, by simpa using hp'ne⟩
    intro x
    constructor
    · intro hx
      rw [List.mem_filter, decide_eq_true_eq] at hx
      obtain ⟨hx1, hx2⟩ := hx
      have hux := (hqiff x).mp hx1
      exact ⟨hux.1, fun hc => ((hmem2 x).mp hc).elim hux.2 hx2⟩
    · rintro ⟨hx1, hx2⟩
      rw [List.mem_filter, decide_eq_true_eq]
      have hnp : ¬ x ∈ (res ++ hid).map Element.id :=
        fun hc => hx2 ((hmem2 x).mpr (Or.inl hc))
      have hne : x ≠ r.id := fun hc => hx2 ((hmem2 x).mpr (Or.inr hc))
      exact ⟨(hqiff x).mpr ⟨hx1, hnp⟩, hne⟩
  · -- queue elements have all original dependencies popped
    intro r' hr' d hd
    rw [List.mem_append, List.mem_reverse] at hr'
    rcases hr' with hr' | hr'
    · rw [List.mem_map] at hr'
      obtain ⟨p', hp', rfl⟩ := hr'
      rw [List.mem_filter, decide_eq_true_eq] at hp'
      obtain ⟨hp'mem, hp'nil⟩ := hp'
      rw [List.mem_map] at hp'mem
      obtain ⟨q, hq, rfl⟩ := hp'mem
      obtain ⟨hqiff, _⟩ := hD q hq
      refine (hmem2 d).mpr ?_
      by_cases hdp : d ∈ (res ++ hid).map Element.id
      · exact Or.inl hdp
      · have hdq : d ∈ q.2.2 := (hqiff d).mpr ⟨hd, hdp⟩
        have hall := List.filter_eq_nil_iff.mp hp'nil d hdq
        right
        simpa using hall
    · have hmem := hQ r' (List.mem_cons_of_mem _ hr') d hd
      exact (hmem2 d).mpr (Or.inl hmem)
  · -- emitted visible relations are visible
    intro u hu
    by_cases hr : r.visible = true
    · rw [if_pos hr, List.mem_append] at hu
      rcases hu with hu | hu
      · exact hRv u hu
      · rw [List.mem_singleton] at hu
        subst hu
        exact hr
    · rw [if_neg hr] at hu
      exact hRv u hu
  · -- hidden relations are invisible
    intro u hu
    by_cases hr : r.visible = true
    · rw [if_pos hr] at hu
      exact hHv u hu
    · rw [if_neg hr, List.mem_append] at hu
      rcases hu with hu | hu
      · exact hHv u hu
      · rw [List.mem_singleton] at hu
        subst hu
        simpa using hr
  · -- ordering of emitted visible relations
    intro i u hu d hd
    by_cases hr : r.visible = true
    · rw [if_pos hr] at hu ⊢
      rw [if_pos hr]
      rcases lt_or_ge i res.length with hi | hi
      · rw [List.getElem?_append, if_pos hi] at hu
        have hord := hORD i u hu d hd
        rw [List.take_append_eq_append_take]
        rcases hord with h | h
        · left
          rw [List.map_append, List.mem_append]
          exact Or.inl h
        · exact Or.inr h
      · rw [List.getElem?_append_right hi] at hu
        have hru : i - res.length = 0 ∧ u = r := by
          cases h0 : i - res.length with
          | zero =>
            rw [h0] at hu
            simp only [List.getElem?_cons_zero, Option.some.injEq] at hu
            exact ⟨rfl, hu.symm⟩
          | succ n =>
            rw [h0] at hu
            simp at hu
        obtain ⟨hi0, rfl⟩ := hru
        have hieq : i = res.length := by omega
        subst hieq
        rw [List.take_append_eq_append_take, List.take_length]
        have hall := hQ u (List.mem_cons_self u queue2) d hd
        rw [List.map_append, List.mem_append] at hall
        rcases hall with h | h
        · left
          rw [List.map_append, List.mem_append]
          exact Or.inl h
        · exact Or.inr h
    · rw [if_neg hr] at hu ⊢
      rw [if_neg hr]
      have hord := hORD i u hu d hd
      rcases hord with h | h
      · exact Or.inl h
      · right
        rw [List.map_append, List.mem_append]
        exact Or.inl h
  · -- residual entries stay a sublist of the input
    have h1 : (((st.map (fun p => (p.1, p.2.1, p.2.2.filter (fun x => x ≠ r.id)))).filter
        (fun p => ¬ p.2.2 = [])).map (fun p : Nat × Element × List Nat => p.2.1)).Sublist
        ((st.map (fun p => (p.1, p.2.1, p.2.2.filter (fun x => x ≠ r.id)))).map
          (fun p : Nat × Element × List Nat => p.2.1)) :=
      (List.filter_sublist _).map _
    have h3 : ((st.map (fun p => (p.1, p.2.1, p.2.2.filter (fun x => x ≠ r.id)))).map
        (fun p : Nat × Element × List Nat => p.2.1)) = st.map (fun p => p.2.1) := by
      simp [List.map_map]
    rw [h3] at h1
    exact h1.trans hSUB

/-- The peel loop, run to completion (the fuel bounds the loop measure,
which strictly decreases), empties the queue and preserves the
invariant. -/
theorem peel_inv (rels : List Element) : ∀ (fuel : Nat) (queue : List Element)
    (st : List (Nat × Element × List Nat)) (res hid : List Element),
    queue.length + st.length ≤ fuel →
    peelInv rels queue st res hid →
    peelInv rels [] (peel fuel queue st res hid).2.2
      (peel fuel queue st res hid).1 (peel fuel queue st res hid).2.1 := by
  intro fuel
  induction fuel with
  | zero =>
    intro queue st res hid hfuel hinv
    have hq : queue = [] := by
      cases queue with
      | nil => rfl
      | cons a l => simp at hfuel
    subst hq
    exact hinv
  | succ fuel ih =>
    intro queue st res hid hfuel hinv
    cases queue with
    | nil => exact hinv
    | cons r queue2 =>
      simp only [peel]
      have hstep := peelInv_step rels r queue2 st res hid hinv
      have hlen : ((((st.map (fun p => (p.1, p.2.1, p.2.2.filter (fun x => x ≠ r.id)))).filter
          (fun p => p.2.2 = [])).map (fun p : Nat × Element × List Nat => p.2.1)).reverse
            ++ queue2).length +
          ((st.map (fun p => (p.1, p.2.1, p.2.2.filter (fun x => x ≠ r.id)))).filter
            (fun p => ¬ p.2.2 = [])).length ≤ fuel := by
        have hperm := (List.filter_append_perm
            (fun p : Nat × Element × List Nat => decide (p.2.2 = []))
            (st.map (fun p => (p.1, p.2.1, p.2.2.filter (fun x => x ≠ r.id))))).length_eq
        simp only [List.length_append, List.length_map, List.length_reverse] at hperm ⊢
        simp only [← decide_not] at hperm
        simp only [List.length_cons] at hfuel
        omega
      exact ih _ _ _ _ hlen hstep

/-- For an input with no duplicate ids, the peel phase of
`sort_relations_for_osm_change` satisfies the loop invariant with an
empty queue. -/
theorem sortRelationsParts_inv (rels : List Element)
    (h : (rels.map Element.id).Nodup) :
    peelInv rels [] (sortRelationsParts rels).2.2 (sortRelationsParts rels).1
      (sortRelationsParts rels).2.1 := by
  have hst0 : dictOf (rels.map (fun r => (r.id, (r, origDeps (rels.map Element.id) r)))) =
      rels.map (fun r => (r.id, (r, origDeps (rels.map Element.id) r))) := by
    apply dictOf_self_of_nodup
    simpa [dictKeys, List.map_map, Function.comp] using h
  have hinit : peelInv rels
      (((rels.map (fun r => (r.id, (r, origDeps (rels.map Element.id) r)))).filter
        (fun p => p.2.2 = [])).map (fun p => p.2.1)).reverse
      ((rels.map (fun r => (r.id, (r, origDeps (rels.map Element.id) r)))).filter
        (fun p => ¬ p.2.2 = []))
      [] [] := by
    refine ⟨?_, ?_, ?_, ?_, ?_, ?_, ?_⟩
    · rw [List.perm_iff_count]
      intro a
      have hperm := ((List.filter_append_perm
          (fun p : Nat × Element × List Nat => decide (p.2.2 = []))
          (rels.map (fun r => (r.id, (r, origDeps (rels.map Element.id) r))))).map
          (fun p => p.2.1)).count_eq a
      simp only [List.map_append, List.count_append] at hperm
      have h3 : ((rels.map (fun r => (r.id, (r, origDeps (rels.map Element.id) r)))).map
          (fun p : Nat × Element × List Nat => p.2.1)) = rels := by
        simp [List.map_map, Function.comp_def]
      rw [h3] at hperm
      simp only [List.count_append, List.count_reverse, List.nil_append]
      simp only [← decide_not] at hperm ⊢
      omega
    · intro p hp
      rw [List.mem_filter, decide_eq_true_eq] at hp
      obtain ⟨hpmem, hpne⟩ := hp
      rw [List.mem_map] at hpmem
      obtain ⟨q, hq, rfl⟩ := hpmem
      exact ⟨fun x => by simp, hpne⟩
    · intro r' hr' d hd
      rw [List.mem_reverse, List.mem_map] at hr'
      obtain ⟨p, hp, rfl⟩ := hr'
      rw [List.mem_filter, decide_eq_true_eq] at hp
      obtain ⟨hpmem, hpnil⟩ := hp
      rw [List.mem_map] at hpmem
      obtain ⟨q, hq, rfl⟩ := hpmem
      dsimp only at hd hpnil
      rw [hpnil] at hd
      cases hd
    · intro u hu
      cases hu
    · intro u hu
      cases hu
    · intro i u hu
      simp at hu
    · have h1 : (((rels.map (fun r => (r.id, (r, origDeps (rels.map Element.id) r)))).filter
          (fun p => ¬ p.2.2 = [])).map (fun p : Nat × Element × List Nat => p.2.1)).Sublist
          ((rels.map (fun r => (r.id, (r, origDeps (rels.map Element.id) r)))).map
            (fun p : Nat × Element × List Nat => p.2.1)) :=
        (List.filter_sublist _).map _
      have h3 : ((rels.map (fun r => (r.id, (r, origDeps (rels.map Element.id) r)))).map
          (fun p : Nat × Element × List Nat => p.2.1)) = rels := by
        simp [List.map_map, Function.comp_def]
      rw [h3] at h1
      exact h1
  have hmain := peel_inv rels
    ((((rels.map (fun r => (r.id, (r, origDeps (rels.map Element.id) r)))).filter
        (fun p => p.2.2 = [])).map (fun p => p.2.1)).length +
      ((rels.map (fun r => (r.id, (r, origDeps (rels.map Element.id) r)))).filter
        (fun p => ¬ p.2.2 = [])).length)
    _ _ [] [] (by simp) hinit
  simpa only [sortRelationsParts, hst0] using hmain

/-- C6 counterexample: on five relations with no duplicate ids, the
function returns them in input order `[crA, crB, crC, crD, crE]`. The
visible relation `crA` is outside every dependency cycle (its only
same-submission reference is `crB`, which has none), yet it is emitted
*before* the relation `crB` it references — refuting "every relation
outside a dependency cycle is emitted only after every same-submission
relation it references" (hidden relations are always emitted after all
visible ones, regardless of dependencies). In the residual cycle block,
`crD` (referenced by both `crC` and `crE`) is emitted *after* the
less-referenced `crC` — refuting "most-referenced first" (the remainder
is emitted in input order). -/
theorem C6_counterexample :
    sort_relations_for_osm_change [crA, crB, crC, crD, crE] =
      [crA, crB, crC, crD, crE] ∧
    crA.visible = true ∧ crB.visible = false ∧
    crA.member = [⟨ElemType.relation, 2, ""⟩] ∧ crB.id = 2 ∧ crB.member = [] ∧
    crC.member = [⟨ElemType.relation, 4, ""⟩] ∧
    crD.member = [⟨ElemType.relation, 3, ""⟩] ∧
    crE.member = [⟨ElemType.relation, 4, ""⟩] := by decide

/-- C6 (amended): for every input whose relation ids are distinct,
`sort_relations_for_osm_change` returns a permutation of its input and
never raises (so both members of a dependency cycle are emitted); the
output is the visible relations in peel order, then the hidden ones in
reverse peel order, then the residual cycle-blocked relations in input
order (not most-referenced first, and with only a non-fatal warning);
and the dependency guarantee holds only within the visible block: each
visible peeled relation comes after the visible relations it references,
its hidden references being deferred to the hidden block. -/
theorem C6_sort_relations_amended (rels : List Element)
    (h : (rels.map Element.id).Nodup) : sortSpec rels := by
  obtain ⟨hP, hD, hQ, hRv, hHv, hORD, hSUB⟩ := sortRelationsParts_inv rels h
  refine ⟨?_, rfl, hRv, hHv, hORD, hSUB⟩
  rw [List.perm_iff_count] at hP ⊢
  intro a
  have h1 := hP a
  show ((sortRelationsParts rels).1 ++ (sortRelationsParts rels).2.1.reverse ++
      (sortRelationsParts rels).2.2.map (fun p => p.2.1)).count a = _
  simp only [List.count_append, List.count_reverse, List.count_nil] at h1 ⊢
  omega

/-- Witness for C6 (amended) at the concrete five-relation input. -/
theorem C6_sort_relations_amended_witness :
    (List.map Element.id [crA, crB, crC, crD, crE]).Nodup ∧
    sortSpec [crA, crB, crC, crD, crE] :=
  ⟨by decide, C6_sort_relations_amended [crA, crB, crC, crD, crE] (by decide)⟩

end OsmRevert
